import Mathlib

/-!
Verification development for the dead-link-checker crawler (src/index.js).

The program crawls a website from a seed URL with a pool of concurrent
workers sharing one task queue, checks every discovered link, and reports
dead links.  This file gives a shallow embedding of the crawl engine:

* JS strings are modelled as lists of characters (`Str`);
* the WHATWG URL facility used by the program (the Node `URL` builtin,
  an external collaborator of the repository) is modelled by `parseURL`
  and `resolveRef` on the scheme://host/path fragment the crawler uses;
* the network (`fetch`) and the HTML-to-anchor extraction (jsdom) are
  modelled by a `World` function giving each address a `FetchResult`;
* the module-level mutable state of src/index.js becomes `CrawlState`,
  and the pool of async workers of `processQueue` becomes a small-step
  transition relation `Step` on `SysState` (worker interleaving happens
  at the await points of the JS code: one step dequeues a task and runs
  its synchronous prefix up to the fetch, one step resumes a resolved
  await and runs the next synchronous segment of the task body — a
  `checkLinks` call on an HTML page suspends a second time at
  `await response.text()`, after its outcome is already recorded — and
  one step lets an idle worker exit on an empty queue);
* `main` argument handling and final reporting become `mainModel`.
-/

set_option autoImplicit false

namespace Dlc

/-- JS strings, modelled as lists of characters. -/
abbrev Str := List Char

/-- Shorthand turning a Lean string literal into a `Str`. -/
def str (s : String) : Str := s.toList

/-- Whitespace for the JS `trim` method (the characters relevant here). -/
def isJsSpace (c : Char) : Bool := c = ' ' ∨ c = '\t' ∨ c = '\n' ∨ c = '\r'

/-- Model of the JS `String.prototype.trim`. -/
def jsTrim (s : Str) : Str :=
  ((s.dropWhile isJsSpace).reverse.dropWhile isJsSpace).reverse

/-- Model of the JS `String.prototype.includes` (substring test). -/
def hasSub (pat s : Str) : Bool := s.tails.any (fun t => pat.isPrefixOf t)

/-! ## Model of the Node WHATWG `URL` builtin

src/index.js uses `new URL(ref, base)` for resolution (lines 50, 76),
`new URL(s)` for parsing (lines 94, 192), `.href` serialization and
`.origin`.  The builtin is external to the repository; it is modelled
here on the scheme://host/path shape the crawler works with.  Parsing
failures (`new URL` throwing a TypeError such as for an authority-less
special URL like "https://") are modelled by `none`. -/

/-- Characters allowed in a URL scheme. -/
def isSchemeChar (c : Char) : Bool := c.isAlphanum ∨ c = '+' ∨ c = '-' ∨ c = '.'

/-- Splits a leading `scheme://` off a character list: returns the scheme
characters and the remainder after `://`, or `none` when the string does
not start with a `scheme://` prefix. -/
def splitScheme : Str → Option (Str × Str)
  | [] => none
  | c :: rest =>
    if c = ':' then
      if rest.take 2 = ['/', '/'] then some ([], rest.drop 2) else none
    else if isSchemeChar c then
      (splitScheme rest).map (fun p => (c :: p.1, p.2))
    else none

/-- The components of a parsed absolute URL: scheme, host (including any
port) and path.  The path always starts with a slash. -/
structure URLParts where
  scheme : Str
  host : Str
  path : Str
  deriving DecidableEq, Repr

/-- Model of `new URL(s)` on `scheme://host/path` URLs: fails on a missing
or empty scheme or an empty host (where the builtin throws).  A missing
path serializes as the root path, as the builtin does. -/
def parseURL (s : Str) : Option URLParts :=
  match splitScheme s with
  | none => none
  | some (sc, rest) =>
    if sc = [] then none
    else
      let host := rest.takeWhile (fun c => c ≠ '/')
      let path := rest.dropWhile (fun c => c ≠ '/')
      if host = [] then none
      else some ⟨sc, host, if path = [] then ['/'] else path⟩

/-- The `.href` serialization of a parsed URL. -/
def hrefOf (u : URLParts) : Str := u.scheme ++ [':', '/', '/'] ++ u.host ++ u.path

/-- The `.origin` of a parsed URL (scheme://host). -/
def originOf (u : URLParts) : Str := u.scheme ++ [':', '/', '/'] ++ u.host

/-- The `.origin` of an address string, when it parses (line 94-95 of the
source compares `new URL(link).origin` with the seed origin). -/
def urlOrigin (s : Str) : Option Str := (parseURL s).map originOf

/-- The directory part of a path: everything up to and including the last
slash.  Used for relative-reference resolution. -/
def dirOf (p : Str) : Str := (p.reverse.dropWhile (fun c => c ≠ '/')).reverse

/-- Model of `new URL(ref, base).href`: an absolute reference is parsed on
its own (a malformed absolute reference such as "https://" makes the
builtin throw, modelled by `none`); a protocol-relative reference takes
the scheme of the base; an absolute path replaces the base path; any
other reference is resolved against the directory of the base path.  An
empty reference yields the base itself. -/
def resolveRef (ref base : Str) : Option Str :=
  match splitScheme ref with
  | some _ => (parseURL ref).map hrefOf
  | none =>
    match parseURL base with
    | none => none
    | some b =>
      if ref = [] then some (hrefOf b)
      else if ref.take 2 = ['/', '/'] then
        (parseURL (b.scheme ++ [':'] ++ ref)).map hrefOf
      else if ref.head? = some '/' then some (hrefOf { b with path := ref })
      else some (hrefOf { b with path := dirOf b.path ++ ref })

/-! ## Link normalization (src/index.js lines 65-88)

The anchor-extraction `reduce` trims each href, drops empty, `mailto:`,
`javascript:`, pure-fragment and `about:blank` hrefs, splits off the
fragment, resolves against the page URL, and strips one trailing slash;
a href the URL builtin cannot resolve is silently skipped. -/

/-- Model of the per-anchor body of the `reduce` at lines 65-88: returns
the normalized address, or `none` when the href is excluded or invalid. -/
def normalizeHref (href page : Str) : Option Str :=
  let h := jsTrim href
  if h = [] then none
  else if (str "mailto:").isPrefixOf h then none
  else if (str "javascript:").isPrefixOf h then none
  else if h.head? = some '#' then none
  else if h = str "about:blank" then none
  else
    match resolveRef (h.takeWhile (fun c => c ≠ '#')) page with
    | none => none
    | some r => some (if r.getLast? = some '/' then r.dropLast else r)

/-- The ordered list of normalized links extracted from the anchors of a
page (the result of the `reduce` at lines 65-88). -/
def extractLinks (hrefs : List Str) (page : Str) : List Str :=
  hrefs.filterMap (fun h => normalizeHref h page)

/-! ## Crawl data model -/

/-- The status of a recorded link outcome: a numeric HTTP status or the
JS string "FETCH_ERROR" stored in the `status` field. -/
inductive Status where
  | code (n : Nat)
  | fetchError
  deriving DecidableEq, Repr

/-- An entry of `checkedLinks` or `deadLinks`: `{ url, status, error? }`. -/
structure Outcome where
  url : Str
  status : Status
  error : Option Str
  deriving DecidableEq, Repr

/-- A queued closure (line 17 `queue`): either a recursive
`() => checkLinks(url, origin)` or the external leaf-check closure of
lines 101-119. -/
inductive CrawlTask where
  | check (url : Str)
  | leaf (url : Str)
  deriving DecidableEq, Repr

/-- The address a queued task is about. -/
def taskUrl : CrawlTask → Str
  | .check u => u
  | .leaf u => u

/-- What a worker is doing between its dequeue and the completion of the
task body, one constructor per suspension of the source: nothing (the
task returned at the `visited` guard), the `await fetch` of line 29
inside `checkLinks`, the `await response.text()` of line 62 (reached
only on a sub-300 HTML response, after the outcome of the page was
already pushed at line 33; the anchors of the already-received body are
carried along), or the `await fetch` of line 103 inside the external
leaf closure (which has no second suspension). -/
inductive RunningTask where
  | nop
  | checkFetch (url : Str)
  | textParse (url : Str) (hrefs : List Str)
  | leafFetch (url : Str)
  deriving DecidableEq, Repr

/-- A worker of `processQueue`: waiting at the top of its loop, executing
a dequeued task, or exited (its async function returned). -/
inductive Worker where
  | idle
  | running (t : RunningTask)
  | done
  deriving DecidableEq, Repr

/-- The module-level mutable state of src/index.js (lines 8-17): the task
queue, the `visited` and `queuedLinks` sets (insertion lists, used only
through membership), the `checkedLinks` and `deadLinks` arrays, and the
`checked` and `totalLinks` counters. -/
structure CrawlState where
  queue : List CrawlTask
  visited : List Str
  queuedLinks : List Str
  checkedLinks : List Outcome
  deadLinks : List Outcome
  checked : Nat
  totalLinks : Nat
  deriving DecidableEq, Repr

/-- The whole system: the worker pool of `processQueue` plus the shared
crawl state. -/
structure SysState where
  workers : List Worker
  crawl : CrawlState
  deriving DecidableEq, Repr

/-- The response the environment gives for one fetched address: either a
response with a status, an optional Location header, a content type and
the hrefs of the anchors of the body, or a transport-level failure with
an error message.  This models `fetch` plus the jsdom anchor extraction,
both external collaborators. -/
inductive FetchResult where
  | ok (status : Nat) (location : Option Str) (contentType : Str) (hrefs : List Str)
  | netError (msg : Str)

/-- The network: what fetching each address yields in a given run. -/
def World := Str → FetchResult

/-- The error message of the TypeError thrown by `new URL` on a malformed
string, as recorded by the catch at line 124. -/
def invalidURLMsg : Str := str "Invalid URL"

/-- The error message recorded for a redirect without a Location header
(line 46). -/
def redirectErrMsg : Str := str "Redirect with no Location header"

/-! ## Task effects (src/index.js lines 24-128)

`checkLinks` first checks and updates `visited` (lines 25-26, before the
fetch), then fetches; everything after the fetch resolves is the effect
applied when the task completes.  The external leaf closure (lines
101-119) has no `visited` guard and a simpler body. -/

/-- The for-loop over extracted links (lines 90-123): each link not yet
in `queuedLinks` is added to the set and enqueued as a recursive
`checkLinks` task when its origin matches the seed origin, else as an
external leaf task; `totalLinks` counts both.  If `new URL(link)` at
line 94 throws, the exception aborts the loop and the catch at line 124
records a FETCH_ERROR outcome for the page in both lists. -/
def linkLoop (page origin : Str) : List Str → CrawlState → CrawlState
  | [], c => c
  | link :: rest, c =>
    if link ∈ c.queuedLinks then linkLoop page origin rest c
    else
      let c1 := { c with queuedLinks := link :: c.queuedLinks }
      match urlOrigin link with
      | none =>
        { c1 with
          checkedLinks := c1.checkedLinks ++ [⟨page, .fetchError, some invalidURLMsg⟩],
          deadLinks := c1.deadLinks ++ [⟨page, .fetchError, some invalidURLMsg⟩] }
      | some o =>
        if o = origin then
          linkLoop page origin rest
            { c1 with queue := c1.queue ++ [.check link], totalLinks := c1.totalLinks + 1 }
        else
          linkLoop page origin rest
            { c1 with queue := c1.queue ++ [.leaf link], totalLinks := c1.totalLinks + 1 }

/-- The composed effect of the whole body of `checkLinks(url, origin)`
after its fetch resolves (lines 29-127, both synchronous segments taken
together): record the outcome; a status of 400 or more is dead; a 3xx
reads Location (a missing or empty header is dead with `redirectErrMsg`,
a present one is resolved and enqueued as a recursive task when new,
and a Location the URL builtin cannot resolve makes line 50 throw so
the catch at line 124 records a FETCH_ERROR outcome); other statuses
parse the body for links when the content type includes text/html.  A
transport failure records a FETCH_ERROR outcome in both lists.  The
interleaved transition system below splits this across the suspension
at `await response.text()` (line 62) via `checkLinksPhase1`; this
composed form is what one such check amounts to in total. -/
def checkLinksEffect (origin url : Str) (res : FetchResult) (c : CrawlState) : CrawlState :=
  match res with
  | .netError m =>
    { c with
      checkedLinks := c.checkedLinks ++ [⟨url, .fetchError, some m⟩],
      deadLinks := c.deadLinks ++ [⟨url, .fetchError, some m⟩] }
  | .ok st loc ct hrefs =>
    let c0 := { c with
      checked := c.checked + 1,
      checkedLinks := c.checkedLinks ++ [⟨url, .code st, none⟩] }
    if 400 ≤ st then
      { c0 with deadLinks := c0.deadLinks ++ [⟨url, .code st, none⟩] }
    else if 300 ≤ st then
      let lval := loc.getD []
      if lval = [] then
        { c0 with deadLinks := c0.deadLinks ++ [⟨url, .code st, some redirectErrMsg⟩] }
      else
        match resolveRef lval url with
        | none =>
          { c0 with
            checkedLinks := c0.checkedLinks ++ [⟨url, .fetchError, some invalidURLMsg⟩],
            deadLinks := c0.deadLinks ++ [⟨url, .fetchError, some invalidURLMsg⟩] }
        | some r =>
          if r ∈ c0.queuedLinks then c0
          else
            { c0 with
              queue := c0.queue ++ [.check r],
              queuedLinks := r :: c0.queuedLinks,
              totalLinks := c0.totalLinks + 1 }
    else if hasSub (str "text/html") ct = false then c0
    else linkLoop url origin (extractLinks hrefs url) c0

/-- The first synchronous segment of the `checkLinks` body after its
fetch resolves (lines 29-61 and the catch at 124-127): every branch up
to the `await response.text()` of line 62.  On a sub-300 HTML response
the outcome is already recorded (line 33) and the worker suspends again
as `textParse`, carrying the anchors of the received body; every other
branch finishes the task, returning the worker to its loop. -/
def checkLinksPhase1 (url : Str) (res : FetchResult) (c : CrawlState) :
    Worker × CrawlState :=
  match res with
  | .netError m =>
    (.idle,
     { c with
       checkedLinks := c.checkedLinks ++ [⟨url, .fetchError, some m⟩],
       deadLinks := c.deadLinks ++ [⟨url, .fetchError, some m⟩] })
  | .ok st loc ct hrefs =>
    let c0 := { c with
      checked := c.checked + 1,
      checkedLinks := c.checkedLinks ++ [⟨url, .code st, none⟩] }
    if 400 ≤ st then
      (.idle, { c0 with deadLinks := c0.deadLinks ++ [⟨url, .code st, none⟩] })
    else if 300 ≤ st then
      let lval := loc.getD []
      if lval = [] then
        (.idle,
         { c0 with deadLinks := c0.deadLinks ++ [⟨url, .code st, some redirectErrMsg⟩] })
      else
        match resolveRef lval url with
        | none =>
          (.idle,
           { c0 with
             checkedLinks := c0.checkedLinks ++ [⟨url, .fetchError, some invalidURLMsg⟩],
             deadLinks := c0.deadLinks ++ [⟨url, .fetchError, some invalidURLMsg⟩] })
        | some r =>
          if r ∈ c0.queuedLinks then (.idle, c0)
          else
            (.idle,
             { c0 with
               queue := c0.queue ++ [.check r],
               queuedLinks := r :: c0.queuedLinks,
               totalLinks := c0.totalLinks + 1 })
    else if hasSub (str "text/html") ct = false then (.idle, c0)
    else (.running (.textParse url hrefs), c0)

/-- Effect of the external leaf closure (lines 101-119) after its fetch
resolves: record the outcome, mark it dead when the status is 400 or
more; a transport failure is pushed to `deadLinks` only. -/
def leafEffect (url : Str) (res : FetchResult) (c : CrawlState) : CrawlState :=
  match res with
  | .ok st _ _ _ =>
    let c0 := { c with
      checked := c.checked + 1,
      checkedLinks := c.checkedLinks ++ [⟨url, .code st, none⟩] }
    if 400 ≤ st then
      { c0 with deadLinks := c0.deadLinks ++ [⟨url, .code st, none⟩] }
    else c0
  | .netError m =>
    { c with deadLinks := c.deadLinks ++ [⟨url, .fetchError, some m⟩] }

/-- The synchronous prefix a worker runs when it dequeues a task: for a
recursive task, the `visited` guard of lines 25-26 (already-visited means
the task body returns before fetching); the crawl state passed in has the
task already popped. -/
def applyStart (t : CrawlTask) (c : CrawlState) : RunningTask × CrawlState :=
  match t with
  | .check url =>
    if url ∈ c.visited then (.nop, c)
    else (.checkFetch url, { c with visited := url :: c.visited })
  | .leaf url => (.leafFetch url, c)

/-- What happens when the await a running worker is suspended on
resolves: the worker runs the next synchronous segment of its task body
and either finishes the task (back to its loop as `idle`) or suspends
again (a `checkLinks` call reaching `await response.text()` at line
62). -/
def finishTask (w : World) (origin : Str) (rt : RunningTask) (c : CrawlState) :
    Worker × CrawlState :=
  match rt with
  | .nop => (.idle, c)
  | .checkFetch url => checkLinksPhase1 url (w url) c
  | .textParse url hrefs => (.idle, linkLoop url origin (extractLinks hrefs url) c)
  | .leafFetch url => (.idle, leafEffect url (w url) c)

/-! ## The worker pool (src/index.js lines 135-146)

Each of the `concurrentRequests` workers loops: when the queue is
nonempty it shifts a task and awaits it, otherwise its loop condition
fails and the worker exits for good.  The queue-length test and the
shift are one synchronous block, so a dequeue is atomic; the awaits —
the fetch of line 29 or 103, the `response.text()` of line 62, and the
pacing delay of line 140 — are the interleaving points, and each step
below runs exactly one synchronous segment between them. -/

/-- One interleaved step of the pool: worker `i` dequeues the head task
and runs its synchronous prefix, or resumes at its pending await and
runs the next segment of its task, or exits because it observes an
empty queue. -/
inductive Step (w : World) (origin : Str) : SysState → SysState → Prop
  | dequeue (s : SysState) (i : Nat) (t : CrawlTask) (rest : List CrawlTask)
      (hw : s.workers[i]? = some .idle) (hq : s.crawl.queue = t :: rest) :
      Step w origin s
        ⟨s.workers.set i (.running (applyStart t { s.crawl with queue := rest }).1),
         (applyStart t { s.crawl with queue := rest }).2⟩
  | complete (s : SysState) (i : Nat) (rt : RunningTask)
      (hw : s.workers[i]? = some (.running rt)) :
      Step w origin s
        ⟨s.workers.set i (finishTask w origin rt s.crawl).1,
         (finishTask w origin rt s.crawl).2⟩
  | retire (s : SysState) (i : Nat)
      (hw : s.workers[i]? = some .idle) (hq : s.crawl.queue = []) :
      Step w origin s ⟨s.workers.set i .done, s.crawl⟩

/-- States a run can reach from a given state. -/
def Reachable (w : World) (origin : Str) : SysState → SysState → Prop :=
  Relation.ReflTransGen (Step w origin)

/-- Deterministic executable form of one step: lets worker `i` act as in
`Step`; a worker index that is out of range or already exited changes
nothing. -/
def execStep (w : World) (origin : Str) (s : SysState) (i : Nat) : SysState :=
  match s.workers[i]? with
  | some .idle =>
    match s.crawl.queue with
    | t :: rest =>
      ⟨s.workers.set i (.running (applyStart t { s.crawl with queue := rest }).1),
       (applyStart t { s.crawl with queue := rest }).2⟩
    | [] => ⟨s.workers.set i .done, s.crawl⟩
  | some (.running rt) =>
    ⟨s.workers.set i (finishTask w origin rt s.crawl).1,
     (finishTask w origin rt s.crawl).2⟩
  | _ => s

/-- Runs a whole schedule of worker choices. -/
def execSched (w : World) (origin : Str) (sched : List Nat) (s : SysState) : SysState :=
  sched.foldl (execStep w origin) s

/-- The crawl state right after `main` seeds the queue (lines 194-196):
the seed task and the seed address in `queuedLinks`, `totalLinks = 1`. -/
def initCrawl (seed : Str) : CrawlState :=
  ⟨[.check seed], [], [seed], [], [], 0, 1⟩

/-- The initial system: `conc` idle workers and the seeded crawl state. -/
def initSys (conc : Nat) (seed : Str) : SysState :=
  ⟨List.replicate conc .idle, initCrawl seed⟩

/-- Every worker of the pool has exited, so `Promise.all` at line 144
resolves and `processQueue` returns. -/
def allDoneB (s : SysState) : Bool := s.workers.all (fun w => w == .done)

/-! ## `main` (src/index.js lines 172-224) -/

/-- The positional argument: the first argument not starting with a dash
(line 174). -/
def findInputURL (args : List Str) : Option Str :=
  args.find? (fun a => ¬ (a.head? = some '-'))

/-- The JS `s.split(sep)[1]`: the segment between the first and the
second occurrence of the separator, or `none` when the separator does
not occur. -/
def splitSecond (sep : Char) (a : Str) : Option Str :=
  if a.any (fun c => c = sep) then
    some (((a.dropWhile (fun c => c ≠ sep)).drop 1).takeWhile (fun c => c ≠ sep))
  else none

/-- The raw value handed to `Number.parseInt` for the worker count
(lines 176-179): the part of `--concurrent=...` after the equals sign,
with the JS `|| "25"` default for a missing option or a falsy (empty)
value. -/
def concurrentRaw (args : List Str) : Str :=
  match args.find? (fun a => (str "--concurrent=").isPrefixOf a) with
  | none => str "25"
  | some a =>
    match splitSecond '=' a with
    | none => str "25"
    | some v => if v = [] then str "25" else v

/-- The numeric value of a decimal digit character. -/
def digitVal (c : Char) : Nat := c.toNat - '0'.toNat

/-- Model of `Number.parseInt(s, 10)`: trims, reads an optional sign and
then the longest run of leading digits; no digits means NaN (`none`). -/
def parseIntJS (s : Str) : Option Int :=
  let t := jsTrim s
  let core : Str → Option Nat := fun u =>
    let d := u.takeWhile Char.isDigit
    if d = [] then none else some (d.foldl (fun acc c => 10 * acc + digitVal c) 0)
  match t with
  | '-' :: r => (core r).map (fun n => -(n : Int))
  | '+' :: r => (core r).map (fun n => (n : Int))
  | r => (core r).map (fun n => (n : Int))

/-- How `Array.from({ length: x }, ...)` sizes the pool at line 136: the
length is converted with ToLength, so NaN and negative values give zero
workers. -/
def toLengthJS (x : Option Int) : Nat :=
  match x with
  | none => 0
  | some n => n.toNat

/-- The number of workers the run creates. -/
def concurrencyOf (args : List Str) : Nat := toLengthJS (parseIntJS (concurrentRaw args))

/-- The text of a recorded status as printed at line 214: the decimal
digits of the code, or the FETCH_ERROR tag. -/
def statusText : Status → Str
  | .code n => Nat.toDigits 10 n
  | .fetchError => str "FETCH_ERROR"

/-- One line of the dead-link report (lines 212-216). -/
def deadLine (o : Outcome) : Str :=
  str "- " ++ o.url ++ str " (Status: " ++ statusText o.status ++
    (match o.error with
     | some e => str ", Error: " ++ e
     | none => []) ++ str ")"

/-- How a run of `main` ends: the usage error of lines 185-190, a crash
of the top-level catch (line 221, for a seed the URL builtin rejects),
or a completed run with its exit code and printed dead-link lines
(lines 207-218). -/
inductive MainFinal where
  | usage
  | crashed
  | finished (exitCode : Nat) (deadPrinted : List Str)
  deriving DecidableEq, Repr

/-- The process exit code of each ending. -/
def exitOf : MainFinal → Nat
  | .usage => 1
  | .crashed => 1
  | .finished e _ => e

/-- The system state after the crawl of a run of `main`, when one starts:
`none` when the usage error or the seed parse failure stops the run
before any crawling. -/
def mainRunState (args : List Str) (w : World) (sched : List Nat) : Option SysState :=
  match findInputURL args with
  | none => none
  | some u =>
    if u = [] then none
    else
      match parseURL u with
      | none => none
      | some pu => some (execSched w (originOf pu) sched (initSys (concurrencyOf args) u))

/-- Model of `main` (lines 172-219): no positional argument (or an empty
one, which is falsy at line 185) is the usage error; a seed the URL
builtin rejects at line 192 crashes; otherwise the queue is seeded, the
pool is run, and the process exits 0 with no dead lines printed exactly
when `deadLinks` stayed empty, else 1 with one line per dead link. -/
def mainModel (args : List Str) (w : World) (sched : List Nat) : MainFinal :=
  match findInputURL args with
  | none => .usage
  | some u =>
    if u = [] then .usage
    else
      match parseURL u with
      | none => .crashed
      | some pu =>
        let sF := execSched w (originOf pu) sched (initSys (concurrencyOf args) u)
        .finished (if sF.crawl.deadLinks = [] then 0 else 1)
          (sF.crawl.deadLinks.map deadLine)

/-! ## Well-formed URL parts and the parse/serialize round trip

These lemmas show that every address the normalizer emits is accepted
again by the URL model, so the re-parse at line 94 of the source never
throws for a normalized link. -/

/-- Well-formedness of URL components, as guaranteed by `parseURL`. -/
def WF (u : URLParts) : Prop :=
  u.scheme ≠ [] ∧ (∀ c ∈ u.scheme, isSchemeChar c = true) ∧
    u.host ≠ [] ∧ (∀ c ∈ u.host, c ≠ '/') ∧ u.path.head? = some '/'

lemma splitScheme_sound : ∀ (s sc r : Str), splitScheme s = some (sc, r) →
    ∀ c ∈ sc, isSchemeChar c = true := by
  intro s
  induction s with
  | nil => intro sc r h; simp [splitScheme] at h
  | cons c rest ih =>
    intro sc r h
    simp only [splitScheme] at h
    split_ifs at h with hc ht hs
    · have hsc : sc = [] := (congrArg Prod.fst (Option.some.inj h)).symm
      subst hsc
      intro x hx
      simp at hx
    · rcases Option.map_eq_some'.mp h with ⟨⟨sc1, r1⟩, hrec, heq⟩
      have hsc : sc = c :: sc1 := (congrArg Prod.fst heq).symm
      subst hsc
      intro x hx
      rcases List.mem_cons.mp hx with rfl | hx2
      · exact hs
      · exact ih sc1 r1 hrec x hx2

lemma splitScheme_append (sc r : Str) (hsc : ∀ c ∈ sc, isSchemeChar c = true) :
    splitScheme (sc ++ ':' :: '/' :: '/' :: r) = some (sc, r) := by
  induction sc with
  | nil => simp [splitScheme]
  | cons c cs ih =>
    have hc : isSchemeChar c = true := hsc c (List.mem_cons_self c cs)
    have hcne : ¬ (c = ':') := by
      intro h
      rw [h] at hc
      exact absurd hc (by decide)
    have hstep : splitScheme (c :: (cs ++ ':' :: '/' :: '/' :: r)) =
        (splitScheme (cs ++ ':' :: '/' :: '/' :: r)).map (fun p => (c :: p.1, p.2)) := by
      simp [splitScheme, hcne, hc]
    rw [List.cons_append, hstep, ih (fun x hx => hsc x (List.mem_cons_of_mem c hx))]
    rfl

lemma takeWhile_host (host t : Str) (hh : ∀ c ∈ host, c ≠ '/') :
    (host ++ '/' :: t).takeWhile (fun c => c ≠ '/') = host ∧
      (host ++ '/' :: t).dropWhile (fun c => c ≠ '/') = '/' :: t := by
  induction host with
  | nil => simp [List.takeWhile_cons, List.dropWhile_cons]
  | cons c cs ih =>
    have hc : c ≠ '/' := hh c (List.mem_cons_self c cs)
    have hr := ih (fun x hx => hh x (List.mem_cons_of_mem c hx))
    have hcb : decide (c ≠ '/') = true := decide_eq_true hc
    constructor
    · rw [List.cons_append, List.takeWhile_cons, hcb]
      simp only [if_true, hr.1]
    · rw [List.cons_append, List.dropWhile_cons, hcb]
      simp only [if_true, hr.2]

lemma takeWhile_all_ne (l : Str) (h : ∀ c ∈ l, c ≠ '/') :
    l.takeWhile (fun c => c ≠ '/') = l ∧ l.dropWhile (fun c => c ≠ '/') = [] :=
  ⟨List.takeWhile_eq_self_iff.mpr (fun c hc => decide_eq_true (h c hc)),
   List.dropWhile_eq_nil_iff.mpr (fun c hc => decide_eq_true (h c hc))⟩

lemma parseURL_wf (s : Str) (u : URLParts) (h : parseURL s = some u) : WF u := by
  simp only [parseURL] at h
  split at h
  · exact absurd h (by simp)
  · rename_i sc rest hsplit
    have hscheme := splitScheme_sound s sc rest hsplit
    split_ifs at h with h1 h2 h3
    · have hu := Option.some.inj h
      subst hu
      refine ⟨h1, hscheme, h2, ?_, rfl⟩
      intro c hc
      dsimp only at hc
      have h6 := List.mem_takeWhile_imp hc
      simpa using h6
    · have hu := Option.some.inj h
      subst hu
      refine ⟨h1, hscheme, h2, ?_, ?_⟩
      · intro c hc
        dsimp only at hc
        have h6 := List.mem_takeWhile_imp hc
        simpa using h6
      · dsimp only
        rw [List.head?_eq_head h3]
        have := List.head_dropWhile_not (fun c => decide (c ≠ '/')) rest h3
        simp only [decide_not, Bool.not_eq_false', decide_eq_true_eq] at this
        simp [this]

lemma parse_hrefOf (u : URLParts) (h : WF u) : parseURL (hrefOf u) = some u := by
  obtain ⟨h1, h2, h3, h4, h5⟩ := h
  obtain ⟨pt, hpath⟩ : ∃ pt, u.path = '/' :: pt := by
    cases hp : u.path with
    | nil => rw [hp] at h5; simp at h5
    | cons x xs =>
      rw [hp] at h5
      simp only [List.head?_cons, Option.some.injEq] at h5
      exact ⟨xs, by rw [h5]⟩
  have hform : hrefOf u = u.scheme ++ ':' :: '/' :: '/' :: (u.host ++ u.path) := by
    simp [hrefOf, List.append_assoc]
  have htw := takeWhile_host u.host pt h4
  rw [hform, hpath, parseURL, splitScheme_append u.scheme (u.host ++ '/' :: pt) h2]
  simp only [htw.1, htw.2, if_neg h1, if_neg h3]
  rw [if_neg (by simp)]
  rw [← hpath]

lemma parse_hostOnly (sc host : Str) (h1 : sc ≠ []) (h2 : ∀ c ∈ sc, isSchemeChar c = true)
    (h3 : host ≠ []) (h4 : ∀ c ∈ host, c ≠ '/') :
    parseURL (sc ++ ':' :: '/' :: '/' :: host) = some ⟨sc, host, ['/']⟩ := by
  have htw := takeWhile_all_ne host h4
  rw [parseURL, splitScheme_append sc host h2]
  simp only [htw.1, htw.2, if_neg h1, if_neg h3]
  simp

lemma getLast?_hrefOf (u : URLParts) (hp : u.path ≠ []) :
    (hrefOf u).getLast? = u.path.getLast? := by
  have hne : u.host ++ u.path ≠ [] := by simp [hp]
  have hne2 : [':', '/', '/'] ++ (u.host ++ u.path) ≠ [] := by simp
  simp only [hrefOf, List.append_assoc]
  rw [List.getLast?_append_of_ne_nil _ hne2, List.getLast?_append_of_ne_nil _ hne,
    List.getLast?_append_of_ne_nil _ hp]

lemma dropLast_hrefOf (u : URLParts) (hp : u.path ≠ []) :
    (hrefOf u).dropLast = u.scheme ++ [':', '/', '/'] ++ u.host ++ u.path.dropLast := by
  have hne : u.host ++ u.path ≠ [] := by simp [hp]
  have hne2 : [':', '/', '/'] ++ (u.host ++ u.path) ≠ [] := by simp
  simp only [hrefOf, List.append_assoc]
  rw [List.dropLast_append_of_ne_nil _ hne2, List.dropLast_append_of_ne_nil _ hne,
    List.dropLast_append_of_ne_nil _ hp]

lemma parse_stripped (u : URLParts) (h : WF u) :
    (parseURL ((hrefOf u).dropLast)).isSome = true := by
  have h5 := h.2.2.2.2
  have hp : u.path ≠ [] := by
    intro he
    rw [he] at h5
    simp at h5
  rw [dropLast_hrefOf u hp]
  by_cases hnil : u.path.dropLast = []
  · rw [hnil]
    have hform : u.scheme ++ [':', '/', '/'] ++ u.host ++ ([] : Str) =
        u.scheme ++ ':' :: '/' :: '/' :: u.host := by
      simp [List.append_assoc]
    rw [hform, parse_hostOnly u.scheme u.host h.1 h.2.1 h.2.2.1 h.2.2.2.1]
    rfl
  · have hhead : u.path.dropLast.head? = some '/' := by
      obtain ⟨pt, hpath⟩ : ∃ pt, u.path = '/' :: pt := by
        cases hq : u.path with
        | nil => exact absurd hq hp
        | cons x xs =>
          rw [hq] at h5
          simp only [List.head?_cons, Option.some.injEq] at h5
          exact ⟨xs, by rw [h5]⟩
      rcases hpt : pt with _ | ⟨y, ys⟩
      · rw [hpath, hpt] at hnil
        simp at hnil
      · rw [hpath, hpt, List.dropLast_cons_of_ne_nil (by simp)]
        rfl
    have hwf2 : WF ⟨u.scheme, u.host, u.path.dropLast⟩ :=
      ⟨h.1, h.2.1, h.2.2.1, h.2.2.2.1, hhead⟩
    have hform : u.scheme ++ [':', '/', '/'] ++ u.host ++ u.path.dropLast =
        hrefOf ⟨u.scheme, u.host, u.path.dropLast⟩ := by
      simp [hrefOf]
    rw [hform, parse_hrefOf _ hwf2]
    rfl

lemma dirOf_head (p x : Str) (hp : p.head? = some '/') :
    (dirOf p ++ x).head? = some '/' := by
  have hmem : '/' ∈ p.reverse := by
    rw [List.mem_reverse]
    cases hq : p with
    | nil => rw [hq] at hp; simp at hp
    | cons c cs =>
      rw [hq] at hp
      simp only [List.head?_cons, Option.some.injEq] at hp
      rw [← hp]
      exact List.mem_cons_self _ _
  have hne : p.reverse.dropWhile (fun c => c ≠ '/') ≠ [] := by
    intro he
    have := List.dropWhile_eq_nil_iff.mp he '/' hmem
    simp at this
  have hpre : dirOf p <+: p := by
    have h2 : dirOf p <+: p.reverse.reverse := by
      rw [dirOf]
      exact List.reverse_prefix.mpr (List.dropWhile_suffix _)
    simpa using h2
  have hdne : dirOf p ≠ [] := by
    rw [dirOf]
    simp only [ne_eq, List.reverse_eq_nil_iff]
    exact hne
  obtain ⟨d, ds, hd⟩ := List.exists_cons_of_ne_nil hdne
  obtain ⟨t, ht⟩ := hpre
  rw [hd] at ht
  rw [← ht] at hp
  simp only [List.cons_append, List.head?_cons, Option.some.injEq] at hp
  rw [hd]
  simp [hp]

lemma resolveRef_wf (ref base r : Str) (h : resolveRef ref base = some r) :
    ∃ u, WF u ∧ r = hrefOf u := by
  simp only [resolveRef] at h
  split at h
  · rcases Option.map_eq_some'.mp h with ⟨u, hu, rfl⟩
    exact ⟨u, parseURL_wf ref u hu, rfl⟩
  · split at h
    · exact absurd h (by simp)
    · rename_i b hb
      have hwb := parseURL_wf base b hb
      split_ifs at h with h1 h2 h3
      · exact ⟨b, hwb, (Option.some.inj h).symm⟩
      · rcases Option.map_eq_some'.mp h with ⟨u, hu, rfl⟩
        exact ⟨u, parseURL_wf _ u hu, rfl⟩
      · refine ⟨{ b with path := ref }, ⟨hwb.1, hwb.2.1, hwb.2.2.1, hwb.2.2.2.1, h3⟩,
          (Option.some.inj h).symm⟩
      · refine ⟨{ b with path := dirOf b.path ++ ref },
          ⟨hwb.1, hwb.2.1, hwb.2.2.1, hwb.2.2.2.1, dirOf_head b.path ref hwb.2.2.2.2⟩,
          (Option.some.inj h).symm⟩

/-- Every address the anchor normalizer emits is parsed again without
error by the URL model: the `new URL(link)` at line 94 of the source
cannot throw for a normalized link. -/
lemma normalizeHref_parse (href page link : Str)
    (h : normalizeHref href page = some link) : (parseURL link).isSome = true := by
  simp only [normalizeHref] at h
  split_ifs at h
  split at h
  · exact absurd h (by simp)
  · rename_i r hres
    obtain ⟨u, hwf, rfl⟩ := resolveRef_wf _ page r hres
    have hlink := Option.some.inj h
    subst hlink
    split
    · exact parse_stripped u hwf
    · rw [parse_hrefOf u hwf]
      rfl

/-- Link extraction only emits addresses the URL model accepts. -/
lemma extractLinks_parse (hrefs : List Str) (page link : Str)
    (h : link ∈ extractLinks hrefs page) : (parseURL link).isSome = true := by
  rcases List.mem_filterMap.mp h with ⟨a, _, hn⟩
  exact normalizeHref_parse a page link hn

/-! ## Basic facts about the executable scheduler -/

lemma getElem?_set_self_of_lt {α : Type} (l : List α) (i : Nat) (v : α)
    (h : i < l.length) : (l.set i v)[i]? = some v := by
  rw [List.getElem?_set_self]
  · simp [List.getElem?_eq_some, h]

lemma mem_set_of_lt {α : Type} (l : List α) (i : Nat) (v : α) (h : i < l.length) :
    v ∈ l.set i v := by
  have h2 := getElem?_set_self_of_lt l i v h
  exact List.mem_iff_getElem?.mpr ⟨i, h2⟩

lemma lt_of_getElem?_eq_some {α : Type} (l : List α) (i : Nat) (v : α)
    (h : l[i]? = some v) : i < l.length := by
  rw [List.getElem?_eq_some] at h
  exact h.1

/-- Each action of `execStep` is either a stutter or a `Step`. -/
lemma execStep_step (w : World) (origin : Str) (s : SysState) (i : Nat) :
    execStep w origin s i = s ∨ Step w origin s (execStep w origin s i) := by
  rcases hw : s.workers[i]? with _ | wk
  · left
    simp [execStep, hw]
  · cases wk with
    | idle =>
      rcases hq : s.crawl.queue with _ | ⟨t, rest⟩
      · right
        rw [show execStep w origin s i = ⟨s.workers.set i .done, s.crawl⟩ from by
          simp [execStep, hw, hq]]
        exact Step.retire s i hw hq
      · right
        rw [show execStep w origin s i =
            ⟨s.workers.set i (.running (applyStart t { s.crawl with queue := rest }).1),
             (applyStart t { s.crawl with queue := rest }).2⟩ from by
          simp [execStep, hw, hq]]
        exact Step.dequeue s i t rest hw hq
    | running rt =>
      right
      rw [show execStep w origin s i =
          ⟨s.workers.set i (finishTask w origin rt s.crawl).1,
           (finishTask w origin rt s.crawl).2⟩ from by simp [execStep, hw]]
      exact Step.complete s i rt hw
    | done =>
      left
      simp [execStep, hw]

/-- Scheduled execution only visits reachable states. -/
lemma exec_reachable (w : World) (origin : Str) (sched : List Nat) (s : SysState) :
    Reachable w origin s (execSched w origin sched s) := by
  induction sched generalizing s with
  | nil => exact Relation.ReflTransGen.refl
  | cons i rest ih =>
    have h1 : Reachable w origin s (execStep w origin s i) := by
      rcases execStep_step w origin s i with he | hs
      · rw [he]
        exact Relation.ReflTransGen.refl
      · exact Relation.ReflTransGen.single hs
    exact Relation.ReflTransGen.trans h1 (ih (execStep w origin s i))

/-! ## C1: worker-exit discipline

The workers of `processQueue` (lines 135-146) keep no in-flight counter:
a worker whose `while` condition sees an empty queue exits at once, even
while another worker is still awaiting a fetch whose completion will
enqueue more work.  What does hold is that a full pool shutdown implies
an empty queue, because the worker that completes a task re-checks the
queue itself afterwards. -/

/-- The safety invariant behind the amended C1: some worker is still
alive, or the queue is empty. -/
def someActive (s : SysState) : Prop :=
  (∃ wk ∈ s.workers, wk ≠ Worker.done) ∨ s.crawl.queue = []

lemma checkLinksPhase1_ne_done (url : Str) (res : FetchResult) (c : CrawlState) :
    (checkLinksPhase1 url res c).1 ≠ Worker.done := by
  cases res with
  | netError m => simp [checkLinksPhase1]
  | ok st loc ct hrefs =>
    simp only [checkLinksPhase1]
    repeat' split
    all_goals simp

lemma finishTask_ne_done (w : World) (origin : Str) (rt : RunningTask) (c : CrawlState) :
    (finishTask w origin rt c).1 ≠ Worker.done := by
  cases rt with
  | nop => simp [finishTask]
  | checkFetch url => exact checkLinksPhase1_ne_done url (w url) c
  | textParse url hrefs => simp [finishTask]
  | leafFetch url => simp [finishTask]

lemma step_someActive (w : World) (origin : Str) (s s2 : SysState)
    (h : Step w origin s s2) (_hp : someActive s) : someActive s2 := by
  cases h with
  | dequeue i t rest hw hq =>
    left
    have hlt := lt_of_getElem?_eq_some _ _ _ hw
    exact ⟨.running (applyStart t { s.crawl with queue := rest }).1,
      mem_set_of_lt _ _ _ hlt, by simp⟩
  | complete i rt hw =>
    left
    have hlt := lt_of_getElem?_eq_some _ _ _ hw
    exact ⟨(finishTask w origin rt s.crawl).1, mem_set_of_lt _ _ _ hlt,
      finishTask_ne_done w origin rt s.crawl⟩
  | retire i hw hq =>
    right
    exact hq

lemma reachable_someActive (w : World) (origin : Str) (s s2 : SysState)
    (h : Reachable w origin s s2) (hp : someActive s) : someActive s2 := by
  induction h with
  | refl => exact hp
  | tail hstep hlast ih => exact step_someActive w origin _ _ hlast ih

/-- C1 counterexample data: any network, two workers. -/
def c1World : World := fun _ => FetchResult.netError []

def c1Seed : Str := str "https://s.test/"

def c1Origin : Str := str "https://s.test"

/-- C1: the claim is false on the code.  From the initial two-worker
state, one worker dequeues the seed task and is mid-fetch; the second
worker then observes the empty queue and exits permanently even though
the first task is still in flight (and, here, any task could still
enqueue new work).  There is no waiting and no inFlight check in
`processQueue`. -/
theorem c1_counterexample :
    Reachable c1World c1Origin (initSys 2 c1Seed)
        (execSched c1World c1Origin [0, 1] (initSys 2 c1Seed)) ∧
      (execSched c1World c1Origin [0, 1] (initSys 2 c1Seed)).workers =
        [Worker.running (RunningTask.checkFetch c1Seed), Worker.done] ∧
      (execSched c1World c1Origin [0, 1] (initSys 2 c1Seed)).crawl.queue = [] :=
  ⟨exec_reachable c1World c1Origin [0, 1] (initSys 2 c1Seed), by decide, by decide⟩

/-- C1 (amended): workers exit as soon as they observe an empty queue,
with no inFlight tracking; but no enqueued task is ever abandoned: in
any run with at least one worker, once every worker has exited the task
queue is empty. -/
theorem c1_amended_all_done_queue_empty (w : World) (origin seed : Str) (conc : Nat)
    (s : SysState) (hc : 1 ≤ conc) (hr : Reachable w origin (initSys conc seed) s)
    (hd : ∀ wk ∈ s.workers, wk = Worker.done) : s.crawl.queue = [] := by
  have hinit : someActive (initSys conc seed) := by
    left
    refine ⟨.idle, ?_, by simp⟩
    rw [initSys]
    simp only [List.mem_replicate]
    exact ⟨by omega, trivial⟩
  rcases reachable_someActive w origin _ _ hr hinit with ⟨wk, hmem, hne⟩ | hq
  · exact absurd (hd wk hmem) hne
  · exact hq

/-- C1 amended witness: a one-worker run on a failing network reaches the
all-exited state, and the theorem yields the empty queue there. -/
theorem c1_amended_witness :
    (execSched c1World c1Origin [0, 0, 0] (initSys 1 c1Seed)).crawl.queue = [] :=
  c1_amended_all_done_queue_empty c1World c1Origin c1Seed 1
    (execSched c1World c1Origin [0, 0, 0] (initSys 1 c1Seed)) (by decide)
    (exec_reachable c1World c1Origin [0, 0, 0] (initSys 1 c1Seed)) (by decide)

/-! ## C2: per-address accounting

Source facts the invariant rests on: every insertion into `queuedLinks`
is paired with exactly one task creation (lines 51-55, 91-121, 194-196)
and is guarded by a membership test in the same synchronous block, and a
task for an address produces outcomes for that address only. -/

/-- The address a worker is currently fetching, if any. -/
def runUrl : Worker → Option Str
  | .running (.checkFetch u) => some u
  | .running (.leafFetch u) => some u
  | _ => none

/-- The address a worker is currently fetching inside `checkLinks`. -/
def runCheckUrl : Worker → Option Str
  | .running (.checkFetch u) => some u
  | _ => none

/-- How many queued tasks are about an address. -/
def countQ (a : Str) (q : List CrawlTask) : Nat :=
  q.countP (fun t => taskUrl t == a)

/-- How many workers are currently fetching an address. -/
def countR (a : Str) (ws : List Worker) : Nat :=
  ws.countP (fun wk => runUrl wk == some a)

/-- How many workers are currently fetching an address inside
`checkLinks`. -/
def countRC (a : Str) (ws : List Worker) : Nat :=
  ws.countP (fun wk => runCheckUrl wk == some a)

/-- Whether some outcome has been recorded for an address, in either
list. -/
def completedB (a : Str) (c : CrawlState) : Bool :=
  c.checkedLinks.any (fun o => o.url == a) || c.deadLinks.any (fun o => o.url == a)

/-- One when an outcome exists for the address. -/
def cbit (a : Str) (c : CrawlState) : Nat := if completedB a c then 1 else 0

/-- The total accounting of an address: queued task, running task, or
recorded outcome. -/
def claimsOf (a : Str) (s : SysState) : Nat :=
  countQ a s.crawl.queue + countR a s.workers + cbit a s.crawl

/-- The dedup invariant: `queuedLinks` is duplicate-free; an address in
the set is accounted for exactly once (one queued task, or one in-flight
fetch whose outcome is not yet recorded, or a recorded outcome) and an
address outside the set not at all; and a visited address has its
`checkLinks` run in flight or already recorded.  A worker suspended at
`await response.text()` (a `textParse` phase) is not counted by `countR`:
line 33 pushed its outcome before the suspension, so it is accounted
through `cbit`. -/
def DedupInv (s : SysState) : Prop :=
  s.crawl.queuedLinks.Nodup ∧
    (∀ a : Str, claimsOf a s = if a ∈ s.crawl.queuedLinks then 1 else 0) ∧
    (∀ a ∈ s.crawl.visited, countRC a s.workers = 1 ∨ completedB a s.crawl = true)

lemma countP_set {α : Type} (p : α → Bool) (l : List α) (i : Nat) (v v0 : α)
    (h : l[i]? = some v0) :
    (l.set i v).countP p + (if p v0 then 1 else 0) = l.countP p + (if p v then 1 else 0) := by
  induction l generalizing i with
  | nil => simp at h
  | cons x xs ih =>
    cases i with
    | zero =>
      simp only [List.getElem?_cons_zero, Option.some.injEq] at h
      subst h
      simp only [List.set_cons_zero, List.countP_cons]
      omega
    | succ n =>
      simp only [List.getElem?_cons_succ] at h
      have := ih n h
      simp only [List.set_cons_succ, List.countP_cons]
      omega

lemma countRC_le_countR (a : Str) (ws : List Worker) : countRC a ws ≤ countR a ws := by
  induction ws with
  | nil => simp [countRC, countR]
  | cons wk rest ih =>
    simp only [countRC, countR, List.countP_cons] at *
    have : (runCheckUrl wk == some a) = true → (runUrl wk == some a) = true := by
      intro h
      cases wk with
      | running rt => cases rt <;> simp_all [runCheckUrl, runUrl]
      | idle => simp [runCheckUrl] at h
      | done => simp [runCheckUrl] at h
    by_cases h : (runCheckUrl wk == some a) = true
    · have h2 := this h
      simp [h, h2]
      omega
    · simp only [Bool.not_eq_true] at h
      simp [h]
      omega

lemma countQ_append (a : Str) (q : List CrawlTask) (t : CrawlTask) :
    countQ a (q ++ [t]) = countQ a q + (if taskUrl t = a then 1 else 0) := by
  rw [countQ, countQ, List.countP_append]
  congr 1
  by_cases h : taskUrl t = a <;> simp [List.countP_cons, h]

lemma countQ_cons (a : Str) (q : List CrawlTask) (t : CrawlTask) :
    countQ a (t :: q) = countQ a q + (if taskUrl t = a then 1 else 0) := by
  rw [countQ, countQ, List.countP_cons]
  by_cases h : taskUrl t = a <;> simp [h]

/-- What completing one `checkLinks` or leaf body does to the crawl
state, as seen by the per-address accounting. -/
structure EffectDelta (url : Str) (c c2 : CrawlState) : Prop where
  visited_eq : c2.visited = c.visited
  completed_url : completedB url c2 = true
  completed_other : ∀ a, a ≠ url → completedB a c2 = completedB a c
  nodup : c.queuedLinks.Nodup → c2.queuedLinks.Nodup
  old_links : ∀ a ∈ c.queuedLinks, a ∈ c2.queuedLinks ∧ countQ a c2.queue = countQ a c.queue
  new_links : ∀ a, a ∉ c.queuedLinks →
    (a ∈ c2.queuedLinks → countQ a c2.queue = countQ a c.queue + 1) ∧
    (a ∉ c2.queuedLinks → countQ a c2.queue = countQ a c.queue)

lemma completedB_push_checked (a : Str) (c : CrawlState) (o : Outcome)
    (q : List CrawlTask) (v ql : List Str) (tl ck : Nat) :
    completedB a ⟨q, v, ql, c.checkedLinks ++ [o], c.deadLinks, ck, tl⟩ =
      (completedB a c || (o.url == a)) := by
  simp [completedB, List.any_append, Bool.or_assoc, Bool.or_comm, Bool.or_left_comm]

lemma completedB_push_dead (a : Str) (c : CrawlState) (o : Outcome)
    (q : List CrawlTask) (v ql : List Str) (tl ck : Nat) :
    completedB a ⟨q, v, ql, c.checkedLinks, c.deadLinks ++ [o], ck, tl⟩ =
      (completedB a c || (o.url == a)) := by
  simp [completedB, List.any_append, Bool.or_assoc, Bool.or_comm, Bool.or_left_comm]

/-- The accounting effect of the link loop, for link lists on which the
re-parse at line 94 succeeds (which §`extractLinks_parse` guarantees for
extracted links): outcome lists and `visited` are untouched, and each
address is enqueued exactly when it newly enters `queuedLinks`. -/
lemma linkLoop_spec (page origin : Str) (links : List Str) (c : CrawlState)
    (hl : ∀ l ∈ links, (parseURL l).isSome = true) :
    (linkLoop page origin links c).visited = c.visited ∧
      (linkLoop page origin links c).checkedLinks = c.checkedLinks ∧
      (linkLoop page origin links c).deadLinks = c.deadLinks ∧
      (c.queuedLinks.Nodup → (linkLoop page origin links c).queuedLinks.Nodup) ∧
      (∀ a ∈ c.queuedLinks, a ∈ (linkLoop page origin links c).queuedLinks ∧
        countQ a (linkLoop page origin links c).queue = countQ a c.queue) ∧
      (∀ a, a ∉ c.queuedLinks →
        (a ∈ (linkLoop page origin links c).queuedLinks →
          countQ a (linkLoop page origin links c).queue = countQ a c.queue + 1) ∧
        (a ∉ (linkLoop page origin links c).queuedLinks →
          countQ a (linkLoop page origin links c).queue = countQ a c.queue)) := by
  induction links generalizing c with
  | nil => simp [linkLoop]
  | cons link rest ih =>
    have hrest : ∀ l ∈ rest, (parseURL l).isSome = true :=
      fun l hm => hl l (List.mem_cons_of_mem link hm)
    by_cases hmem : link ∈ c.queuedLinks
    · rw [show linkLoop page origin (link :: rest) c = linkLoop page origin rest c from by
        simp [linkLoop, hmem]]
      exact ih c hrest
    · obtain ⟨pu, hpu⟩ := Option.isSome_iff_exists.mp (hl link (List.mem_cons_self link rest))
      have ho : urlOrigin link = some (originOf pu) := by simp [urlOrigin, hpu]
      set t : CrawlTask := if originOf pu = origin then .check link else .leaf link with ht
      have hturl : taskUrl t = link := by
        rw [ht]
        by_cases hcase : originOf pu = origin <;> simp [taskUrl, hcase]
      set c2 : CrawlState :=
        { c with
          queuedLinks := link :: c.queuedLinks,
          queue := c.queue ++ [t],
          totalLinks := c.totalLinks + 1 } with hc2
      have hstep : linkLoop page origin (link :: rest) c = linkLoop page origin rest c2 := by
        rw [linkLoop]
        rw [if_neg hmem, ho]
        dsimp only
        by_cases hcase : originOf pu = origin
        · rw [if_pos hcase, hc2, ht, if_pos hcase]
        · rw [if_neg hcase, hc2, ht, if_neg hcase]
      have hres := ih c2 hrest
      rw [hstep]
      refine ⟨hres.1, hres.2.1, hres.2.2.1, ?_, ?_, ?_⟩
      · intro hnd
        exact hres.2.2.2.1 (List.nodup_cons.mpr ⟨hmem, hnd⟩)
      · intro a ha
        have hane : a ≠ link := fun he => hmem (he ▸ ha)
        have ha2 : a ∈ c2.queuedLinks := List.mem_cons_of_mem link ha
        have hq2 : countQ a c2.queue = countQ a c.queue := by
          rw [hc2]
          dsimp only
          rw [countQ_append, hturl, if_neg (fun he => hane he.symm)]
          omega
        obtain ⟨hm3, hq3⟩ := hres.2.2.2.2.1 a ha2
        exact ⟨hm3, by rw [hq3, hq2]⟩
      · intro a ha
        by_cases hal : a = link
        · subst hal
          have ha2 : a ∈ c2.queuedLinks := List.mem_cons_self a c.queuedLinks
          have hq2 : countQ a c2.queue = countQ a c.queue + 1 := by
            rw [hc2]
            dsimp only
            rw [countQ_append, hturl, if_pos rfl]
          obtain ⟨hm3, hq3⟩ := hres.2.2.2.2.1 a ha2
          exact ⟨fun _ => by rw [hq3, hq2], fun hn => absurd hm3 hn⟩
        · have ha2 : a ∉ c2.queuedLinks := by
            rw [hc2]
            dsimp only
            intro hm
            rcases List.mem_cons.mp hm with he | hm2
            · exact hal he
            · exact ha hm2
          have hq2 : countQ a c2.queue = countQ a c.queue := by
            rw [hc2]
            dsimp only
            rw [countQ_append, hturl, if_neg (fun he => hal he.symm)]
            omega
          obtain ⟨hin, hout⟩ := hres.2.2.2.2.2 a ha2
          exact ⟨fun hm => by rw [hin hm, hq2], fun hn => by rw [hout hn, hq2]⟩

lemma beq_ne_false (a b : Str) (h : a ≠ b) : (b == a) = false :=
  beq_eq_false_iff_ne.mpr (fun he => h he.symm)

/-- The accounting effect of the post-fetch body of `checkLinks`. -/
lemma checkLinksEffect_delta (origin url : Str) (res : FetchResult) (c : CrawlState) :
    EffectDelta url c (checkLinksEffect origin url res c) := by
  cases res with
  | netError m =>
    refine ⟨rfl, ?_, ?_, fun h => h, fun a ha => ⟨ha, rfl⟩,
      fun a ha => ⟨fun hm => absurd hm ha, fun _ => rfl⟩⟩
    · simp [checkLinksEffect, completedB, List.any_append]
    · intro a ha
      simp [checkLinksEffect, completedB, List.any_append, beq_ne_false a url ha]
  | ok st loc ct hrefs =>
    have hcu0 : ∀ c2 : CrawlState, c2.checkedLinks = c.checkedLinks ++ [⟨url, .code st, none⟩] →
        completedB url c2 = true := by
      intro c2 h2
      simp [completedB, h2, List.any_append]
    by_cases h4 : 400 ≤ st
    · have hred : checkLinksEffect origin url (.ok st loc ct hrefs) c =
          { c with
            checked := c.checked + 1,
            checkedLinks := c.checkedLinks ++ [⟨url, .code st, none⟩],
            deadLinks := c.deadLinks ++ [⟨url, .code st, none⟩] } := by
        simp only [checkLinksEffect]
        rw [if_pos h4]
      rw [hred]
      refine ⟨rfl, ?_, ?_, fun h => h, fun a ha => ⟨ha, rfl⟩,
        fun a ha => ⟨fun hm => absurd hm ha, fun _ => rfl⟩⟩
      · simp [completedB, List.any_append]
      · intro a ha
        simp [completedB, List.any_append, beq_ne_false a url ha]
    · by_cases h3 : 300 ≤ st
      · by_cases hloc : loc.getD [] = []
        · have hred : checkLinksEffect origin url (.ok st loc ct hrefs) c =
              { c with
                checked := c.checked + 1,
                checkedLinks := c.checkedLinks ++ [⟨url, .code st, none⟩],
                deadLinks := c.deadLinks ++ [⟨url, .code st, some redirectErrMsg⟩] } := by
            simp only [checkLinksEffect]
            rw [if_neg h4, if_pos h3]
            rw [if_pos hloc]
          rw [hred]
          refine ⟨rfl, ?_, ?_, fun h => h, fun a ha => ⟨ha, rfl⟩,
            fun a ha => ⟨fun hm => absurd hm ha, fun _ => rfl⟩⟩
          · simp [completedB, List.any_append]
          · intro a ha
            simp [completedB, List.any_append, beq_ne_false a url ha]
        · cases hres : resolveRef (loc.getD []) url with
          | none =>
            have hred : checkLinksEffect origin url (.ok st loc ct hrefs) c =
                { c with
                  checked := c.checked + 1,
                  checkedLinks := c.checkedLinks ++ [⟨url, .code st, none⟩] ++
                    [⟨url, .fetchError, some invalidURLMsg⟩],
                  deadLinks := c.deadLinks ++ [⟨url, .fetchError, some invalidURLMsg⟩] } := by
              simp only [checkLinksEffect]
              rw [if_neg h4, if_pos h3]
              rw [if_neg hloc, hres]
            rw [hred]
            refine ⟨rfl, ?_, ?_, fun h => h, fun a ha => ⟨ha, rfl⟩,
              fun a ha => ⟨fun hm => absurd hm ha, fun _ => rfl⟩⟩
            · simp [completedB, List.any_append]
            · intro a ha
              simp [completedB, List.any_append, beq_ne_false a url ha]
          | some r =>
            by_cases hrq : r ∈ c.queuedLinks
            · have hred : checkLinksEffect origin url (.ok st loc ct hrefs) c =
                  { c with
                    checked := c.checked + 1,
                    checkedLinks := c.checkedLinks ++ [⟨url, .code st, none⟩] } := by
                simp only [checkLinksEffect]
                rw [if_neg h4, if_pos h3]
                rw [if_neg hloc, hres]
                dsimp only
                rw [if_pos hrq]
              rw [hred]
              refine ⟨rfl, ?_, ?_, fun h => h, fun a ha => ⟨ha, rfl⟩,
                fun a ha => ⟨fun hm => absurd hm ha, fun _ => rfl⟩⟩
              · simp [completedB, List.any_append]
              · intro a ha
                simp [completedB, List.any_append, beq_ne_false a url ha]
            · have hred : checkLinksEffect origin url (.ok st loc ct hrefs) c =
                  { c with
                    checked := c.checked + 1,
                    checkedLinks := c.checkedLinks ++ [⟨url, .code st, none⟩],
                    queue := c.queue ++ [.check r],
                    queuedLinks := r :: c.queuedLinks,
                    totalLinks := c.totalLinks + 1 } := by
                simp only [checkLinksEffect]
                rw [if_neg h4, if_pos h3]
                rw [if_neg hloc, hres]
                dsimp only
                rw [if_neg hrq]
              rw [hred]
              refine ⟨rfl, ?_, ?_, ?_, ?_, ?_⟩
              · simp [completedB, List.any_append]
              · intro a ha
                simp [completedB, List.any_append, beq_ne_false a url ha]
              · intro hnd
                exact List.nodup_cons.mpr ⟨hrq, hnd⟩
              · intro a ha
                have hane : a ≠ r := fun he => hrq (he ▸ ha)
                refine ⟨List.mem_cons_of_mem r ha, ?_⟩
                have hra : ¬ (taskUrl (CrawlTask.check r) = a) := by
                  simp only [taskUrl]
                  exact fun he => hane he.symm
                dsimp only
                rw [countQ_append, if_neg hra]
                omega
              · intro a ha
                by_cases har : a = r
                · subst har
                  refine ⟨fun _ => ?_, fun hn => absurd (List.mem_cons_self a _) hn⟩
                  dsimp only
                  rw [countQ_append]
                  simp [taskUrl]
                · have ham : a ∉ r :: c.queuedLinks := by
                    intro hm
                    rcases List.mem_cons.mp hm with he | hm2
                    · exact har he
                    · exact ha hm2
                  refine ⟨fun hm => absurd hm ham, fun _ => ?_⟩
                  have hra : ¬ (taskUrl (CrawlTask.check r) = a) := by
                    simp only [taskUrl]
                    exact fun he => har he.symm
                  dsimp only
                  rw [countQ_append, if_neg hra]
                  omega
      · set c0 : CrawlState :=
          { c with
            checked := c.checked + 1,
            checkedLinks := c.checkedLinks ++ [⟨url, .code st, none⟩] } with hc0
        have hd0 : EffectDelta url c c0 := by
          refine ⟨rfl, ?_, ?_, fun h => h, fun a ha => ⟨ha, rfl⟩,
            fun a ha => ⟨fun hm => absurd hm ha, fun _ => rfl⟩⟩
          · simp [hc0, completedB, List.any_append]
          · intro a ha
            simp [hc0, completedB, List.any_append, beq_ne_false a url ha]
        by_cases hct : hasSub (str "text/html") ct = false
        · have hred : checkLinksEffect origin url (.ok st loc ct hrefs) c = c0 := by
            simp only [checkLinksEffect]
            rw [if_neg h4, if_neg h3, if_pos hct]
          rw [hred]
          exact hd0
        · have hred : checkLinksEffect origin url (.ok st loc ct hrefs) c =
              linkLoop url origin (extractLinks hrefs url) c0 := by
            simp only [checkLinksEffect]
            rw [if_neg h4, if_neg h3, if_neg hct]
          rw [hred]
          have hls := linkLoop_spec url origin (extractLinks hrefs url) c0
            (fun l hm => extractLinks_parse hrefs url l hm)
          refine ⟨?_, ?_, ?_, ?_, ?_, ?_⟩
          · rw [hls.1]
          · rw [completedB, hls.2.1, hls.2.2.1]
            exact hd0.completed_url
          · intro a ha
            rw [completedB, hls.2.1, hls.2.2.1]
            exact hd0.completed_other a ha
          · intro hnd
            exact hls.2.2.2.1 (hd0.nodup hnd)
          · intro a ha
            obtain ⟨h1, h2⟩ := hd0.old_links a ha
            obtain ⟨h3b, h4b⟩ := hls.2.2.2.2.1 a h1
            exact ⟨h3b, by rw [h4b, h2]⟩
          · intro a ha
            have ha0 : a ∉ c0.queuedLinks := by
              rw [hc0]
              exact ha
            have hq0 : countQ a c0.queue = countQ a c.queue := rfl
            obtain ⟨hin, hout⟩ := hls.2.2.2.2.2 a ha0
            exact ⟨fun hm => by rw [hin hm, hq0], fun hn => by rw [hout hn, hq0]⟩

/-- The accounting effect of the first segment of the `checkLinks` body:
the same per-address bookkeeping as the composed effect, since the
outcome of the page is already pushed before the suspension at line 62
and the link loop of the second segment has not run yet. -/
lemma checkLinksPhase1_delta (url : Str) (res : FetchResult) (c : CrawlState) :
    EffectDelta url c (checkLinksPhase1 url res c).2 := by
  cases res with
  | netError m =>
    refine ⟨rfl, ?_, ?_, fun h => h, fun a ha => ⟨ha, rfl⟩,
      fun a ha => ⟨fun hm => absurd hm ha, fun _ => rfl⟩⟩
    · simp [checkLinksPhase1, completedB, List.any_append]
    · intro a ha
      simp [checkLinksPhase1, completedB, List.any_append, beq_ne_false a url ha]
  | ok st loc ct hrefs =>
    by_cases h4 : 400 ≤ st
    · have hred : (checkLinksPhase1 url (.ok st loc ct hrefs) c).2 =
          { c with
            checked := c.checked + 1,
            checkedLinks := c.checkedLinks ++ [⟨url, .code st, none⟩],
            deadLinks := c.deadLinks ++ [⟨url, .code st, none⟩] } := by
        simp only [checkLinksPhase1]
        rw [if_pos h4]
      rw [hred]
      refine ⟨rfl, ?_, ?_, fun h => h, fun a ha => ⟨ha, rfl⟩,
        fun a ha => ⟨fun hm => absurd hm ha, fun _ => rfl⟩⟩
      · simp [completedB, List.any_append]
      · intro a ha
        simp [completedB, List.any_append, beq_ne_false a url ha]
    · by_cases h3 : 300 ≤ st
      · by_cases hloc : loc.getD [] = []
        · have hred : (checkLinksPhase1 url (.ok st loc ct hrefs) c).2 =
              { c with
                checked := c.checked + 1,
                checkedLinks := c.checkedLinks ++ [⟨url, .code st, none⟩],
                deadLinks := c.deadLinks ++ [⟨url, .code st, some redirectErrMsg⟩] } := by
            simp only [checkLinksPhase1]
            rw [if_neg h4, if_pos h3]
            rw [if_pos hloc]
          rw [hred]
          refine ⟨rfl, ?_, ?_, fun h => h, fun a ha => ⟨ha, rfl⟩,
            fun a ha => ⟨fun hm => absurd hm ha, fun _ => rfl⟩⟩
          · simp [completedB, List.any_append]
          · intro a ha
            simp [completedB, List.any_append, beq_ne_false a url ha]
        · cases hres : resolveRef (loc.getD []) url with
          | none =>
            have hred : (checkLinksPhase1 url (.ok st loc ct hrefs) c).2 =
                { c with
                  checked := c.checked + 1,
                  checkedLinks := c.checkedLinks ++ [⟨url, .code st, none⟩] ++
                    [⟨url, .fetchError, some invalidURLMsg⟩],
                  deadLinks := c.deadLinks ++ [⟨url, .fetchError, some invalidURLMsg⟩] } := by
              simp only [checkLinksPhase1]
              rw [if_neg h4, if_pos h3]
              rw [if_neg hloc, hres]
            rw [hred]
            refine ⟨rfl, ?_, ?_, fun h => h, fun a ha => ⟨ha, rfl⟩,
              fun a ha => ⟨fun hm => absurd hm ha, fun _ => rfl⟩⟩
            · simp [completedB, List.any_append]
            · intro a ha
              simp [completedB, List.any_append, beq_ne_false a url ha]
          | some r =>
            by_cases hrq : r ∈ c.queuedLinks
            · have hred : (checkLinksPhase1 url (.ok st loc ct hrefs) c).2 =
                  { c with
                    checked := c.checked + 1,
                    checkedLinks := c.checkedLinks ++ [⟨url, .code st, none⟩] } := by
                simp only [checkLinksPhase1]
                rw [if_neg h4, if_pos h3]
                rw [if_neg hloc, hres]
                dsimp only
                rw [if_pos hrq]
              rw [hred]
              refine ⟨rfl, ?_, ?_, fun h => h, fun a ha => ⟨ha, rfl⟩,
                fun a ha => ⟨fun hm => absurd hm ha, fun _ => rfl⟩⟩
              · simp [completedB, List.any_append]
              · intro a ha
                simp [completedB, List.any_append, beq_ne_false a url ha]
            · have hred : (checkLinksPhase1 url (.ok st loc ct hrefs) c).2 =
                  { c with
                    checked := c.checked + 1,
                    checkedLinks := c.checkedLinks ++ [⟨url, .code st, none⟩],
                    queue := c.queue ++ [.check r],
                    queuedLinks := r :: c.queuedLinks,
                    totalLinks := c.totalLinks + 1 } := by
                simp only [checkLinksPhase1]
                rw [if_neg h4, if_pos h3]
                rw [if_neg hloc, hres]
                dsimp only
                rw [if_neg hrq]
              rw [hred]
              refine ⟨rfl, ?_, ?_, ?_, ?_, ?_⟩
              · simp [completedB, List.any_append]
              · intro a ha
                simp [completedB, List.any_append, beq_ne_false a url ha]
              · intro hnd
                exact List.nodup_cons.mpr ⟨hrq, hnd⟩
              · intro a ha
                have hane : a ≠ r := fun he => hrq (he ▸ ha)
                refine ⟨List.mem_cons_of_mem r ha, ?_⟩
                have hra : ¬ (taskUrl (CrawlTask.check r) = a) := by
                  simp only [taskUrl]
                  exact fun he => hane he.symm
                dsimp only
                rw [countQ_append, if_neg hra]
                omega
              · intro a ha
                by_cases har : a = r
                · subst har
                  refine ⟨fun _ => ?_, fun hn => absurd (List.mem_cons_self a _) hn⟩
                  dsimp only
                  rw [countQ_append]
                  simp [taskUrl]
                · have ham : a ∉ r :: c.queuedLinks := by
                    intro hm
                    rcases List.mem_cons.mp hm with he | hm2
                    · exact har he
                    · exact ha hm2
                  refine ⟨fun hm => absurd hm ham, fun _ => ?_⟩
                  have hra : ¬ (taskUrl (CrawlTask.check r) = a) := by
                    simp only [taskUrl]
                    exact fun he => har he.symm
                  dsimp only
                  rw [countQ_append, if_neg hra]
                  omega
      · have hred : (checkLinksPhase1 url (.ok st loc ct hrefs) c).2 =
            { c with
              checked := c.checked + 1,
              checkedLinks := c.checkedLinks ++ [⟨url, .code st, none⟩] } := by
          simp only [checkLinksPhase1]
          rw [if_neg h4, if_neg h3]
          by_cases hct : hasSub (str "text/html") ct = false
          · rw [if_pos hct]
          · rw [if_neg hct]
        rw [hred]
        refine ⟨rfl, ?_, ?_, fun h => h, fun a ha => ⟨ha, rfl⟩,
          fun a ha => ⟨fun hm => absurd hm ha, fun _ => rfl⟩⟩
        · simp [completedB, List.any_append]
        · intro a ha
          simp [completedB, List.any_append, beq_ne_false a url ha]

/-- The accounting effect of the external leaf closure body. -/
lemma leafEffect_delta (url : Str) (res : FetchResult) (c : CrawlState) :
    EffectDelta url c (leafEffect url res c) := by
  cases res with
  | netError m =>
    refine ⟨rfl, ?_, ?_, fun h => h, fun a ha => ⟨ha, rfl⟩,
      fun a ha => ⟨fun hm => absurd hm ha, fun _ => rfl⟩⟩
    · simp [leafEffect, completedB, List.any_append]
    · intro a ha
      simp [leafEffect, completedB, List.any_append, beq_ne_false a url ha]
  | ok st loc ct hrefs =>
    by_cases h4 : 400 ≤ st
    · have hred : leafEffect url (.ok st loc ct hrefs) c =
          { c with
            checked := c.checked + 1,
            checkedLinks := c.checkedLinks ++ [⟨url, .code st, none⟩],
            deadLinks := c.deadLinks ++ [⟨url, .code st, none⟩] } := by
        simp only [leafEffect]
        rw [if_pos h4]
      rw [hred]
      refine ⟨rfl, ?_, ?_, fun h => h, fun a ha => ⟨ha, rfl⟩,
        fun a ha => ⟨fun hm => absurd hm ha, fun _ => rfl⟩⟩
      · simp [completedB, List.any_append]
      · intro a ha
        simp [completedB, List.any_append, beq_ne_false a url ha]
    · have hred : leafEffect url (.ok st loc ct hrefs) c =
          { c with
            checked := c.checked + 1,
            checkedLinks := c.checkedLinks ++ [⟨url, .code st, none⟩] } := by
        simp only [leafEffect]
        rw [if_neg h4]
      rw [hred]
      refine ⟨rfl, ?_, ?_, fun h => h, fun a ha => ⟨ha, rfl⟩,
        fun a ha => ⟨fun hm => absurd hm ha, fun _ => rfl⟩⟩
      · simp [completedB, List.any_append]
      · intro a ha
        simp [completedB, List.any_append, beq_ne_false a url ha]

lemma countR_set (a : Str) (ws : List Worker) (i : Nat) (wk0 wk2 : Worker)
    (h : ws[i]? = some wk0) :
    countR a (ws.set i wk2) + (if runUrl wk0 = some a then 1 else 0) =
      countR a ws + (if runUrl wk2 = some a then 1 else 0) := by
  have hc := countP_set (fun wk => runUrl wk == some a) ws i wk2 wk0 h
  simpa [countR, beq_iff_eq] using hc

lemma countRC_set (a : Str) (ws : List Worker) (i : Nat) (wk0 wk2 : Worker)
    (h : ws[i]? = some wk0) :
    countRC a (ws.set i wk2) + (if runCheckUrl wk0 = some a then 1 else 0) =
      countRC a ws + (if runCheckUrl wk2 = some a then 1 else 0) := by
  have hc := countP_set (fun wk => runCheckUrl wk == some a) ws i wk2 wk0 h
  simpa [countRC, beq_iff_eq] using hc

lemma countR_pos (a : Str) (ws : List Worker) (i : Nat) (wk0 : Worker)
    (h : ws[i]? = some wk0) (hu : runUrl wk0 = some a) : 1 ≤ countR a ws := by
  have hm : wk0 ∈ ws := List.mem_iff_getElem?.mpr ⟨i, h⟩
  have : 0 < ws.countP (fun wk => runUrl wk == some a) :=
    List.countP_pos.mpr ⟨wk0, hm, by simp [hu]⟩
  simpa [countR] using this

lemma runCheckUrl_sub (wk : Worker) (a : Str) (h : runCheckUrl wk = some a) :
    runUrl wk = some a := by
  cases wk with
  | running rt => cases rt <;> simp_all [runCheckUrl, runUrl]
  | idle => simp [runCheckUrl] at h
  | done => simp [runCheckUrl] at h

/-- After the first segment of a check, the worker is never again in a
phase counted as an in-flight fetch: it is back in its loop, or parsing
a body whose outcome is already recorded. -/
lemma checkLinksPhase1_runUrl (url : Str) (res : FetchResult) (c : CrawlState) :
    runUrl (checkLinksPhase1 url res c).1 = none := by
  cases res with
  | netError m => simp [checkLinksPhase1, runUrl]
  | ok st loc ct hrefs =>
    simp only [checkLinksPhase1]
    repeat' split
    all_goals simp [runUrl]

lemma checkLinksPhase1_runCheckUrl (url : Str) (res : FetchResult) (c : CrawlState) :
    runCheckUrl (checkLinksPhase1 url res c).1 = none := by
  cases res with
  | netError m => simp [checkLinksPhase1, runCheckUrl]
  | ok st loc ct hrefs =>
    simp only [checkLinksPhase1]
    repeat' split
    all_goals simp [runCheckUrl]

/-- Resolving the await of an in-flight fetch preserves the dedup
invariant, given the accounting effect of the segment that runs and a
follow-up worker phase that no longer counts as an in-flight fetch
(idle, or parsing an already-recorded body). -/
lemma complete_preserve (s : SysState) (i : Nat) (rt : RunningTask) (url : Str)
    (wk2 : Worker) (c2 : CrawlState) (hw : s.workers[i]? = some (.running rt))
    (hru : runUrl (Worker.running rt) = some url)
    (hw2 : runUrl wk2 = none) (hw2c : runCheckUrl wk2 = none)
    (hdelta : EffectDelta url s.crawl c2) (hinv : DedupInv s) :
    DedupInv ⟨s.workers.set i wk2, c2⟩ := by
  obtain ⟨hnd, hcl, hv⟩ := hinv
  have hR : ∀ a, countR a (s.workers.set i wk2) + (if url = a then 1 else 0) =
      countR a s.workers := by
    intro a
    have hcs := countR_set a s.workers i (.running rt) wk2 hw
    rw [hru, hw2] at hcs
    simpa using hcs
  have hRC : ∀ a, a ≠ url →
      countRC a (s.workers.set i wk2) = countRC a s.workers := by
    intro a ha
    have hcs := countRC_set a s.workers i (.running rt) wk2 hw
    have hz : ¬ (runCheckUrl (Worker.running rt) = some a) := by
      intro hx
      have hx2 := runCheckUrl_sub _ _ hx
      rw [hru] at hx2
      exact ha (Option.some.inj hx2).symm
    rw [if_neg hz, hw2c] at hcs
    simpa using hcs
  have hclu := hcl url
  have hr1 : 1 ≤ countR url s.workers := countR_pos url s.workers i _ hw hru
  have hmem : url ∈ s.crawl.queuedLinks := by
    by_contra hnm
    rw [if_neg hnm] at hclu
    rw [claimsOf] at hclu
    omega
  rw [if_pos hmem, claimsOf] at hclu
  have hq0 : countQ url s.crawl.queue = 0 := by omega
  have hb0 : cbit url s.crawl = 0 := by omega
  refine ⟨hdelta.nodup hnd, ?_, ?_⟩
  · intro a
    by_cases hau : a = url
    · subst hau
      obtain ⟨hm2, hqe⟩ := hdelta.old_links a hmem
      rw [if_pos hm2, claimsOf]
      have hra := hR a
      rw [if_pos rfl] at hra
      have hcb : cbit a c2 = 1 := by
        rw [cbit, hdelta.completed_url]
        rfl
      dsimp only
      omega
    · have hra := hR a
      rw [if_neg (fun he => hau he.symm)] at hra
      have hcb : cbit a c2 = cbit a s.crawl := by
        rw [cbit, cbit, hdelta.completed_other a hau]
      have hclai := hcl a
      by_cases haq : a ∈ s.crawl.queuedLinks
      · obtain ⟨hm2, hqe⟩ := hdelta.old_links a haq
        rw [if_pos hm2, claimsOf]
        rw [if_pos haq, claimsOf] at hclai
        dsimp only
        omega
      · rw [if_neg haq, claimsOf] at hclai
        obtain ⟨hin, hout⟩ := hdelta.new_links a haq
        by_cases haq2 : a ∈ c2.queuedLinks
        · rw [if_pos haq2, claimsOf]
          have := hin haq2
          dsimp only
          omega
        · rw [if_neg haq2, claimsOf]
          have := hout haq2
          dsimp only
          omega
  · intro a ha
    rw [hdelta.visited_eq] at ha
    by_cases hau : a = url
    · subst hau
      right
      exact hdelta.completed_url
    · rcases hv a ha with hrc | hcb
      · left
        rw [hRC a hau]
        exact hrc
      · right
        rw [hdelta.completed_other a hau]
        exact hcb

/-- Completing the parse segment of a check preserves the dedup
invariant: the worker was already past its outcome push, so only the
paired enqueue-and-mark bookkeeping of the link loop changes. -/
lemma textParse_preserve (s : SysState) (i : Nat) (origin url : Str)
    (hrefs : List Str)
    (hw : s.workers[i]? = some (.running (.textParse url hrefs)))
    (hinv : DedupInv s) :
    DedupInv ⟨s.workers.set i .idle,
      linkLoop url origin (extractLinks hrefs url) s.crawl⟩ := by
  obtain ⟨hnd, hcl, hv⟩ := hinv
  have hR : ∀ a, countR a (s.workers.set i .idle) = countR a s.workers := by
    intro a
    have hcs := countR_set a s.workers i (.running (.textParse url hrefs)) .idle hw
    simpa [runUrl] using hcs
  have hRC : ∀ a, countRC a (s.workers.set i .idle) = countRC a s.workers := by
    intro a
    have hcs := countRC_set a s.workers i (.running (.textParse url hrefs)) .idle hw
    simpa [runCheckUrl] using hcs
  have hls := linkLoop_spec url origin (extractLinks hrefs url) s.crawl
    (fun l hm => extractLinks_parse hrefs url l hm)
  refine ⟨hls.2.2.2.1 hnd, ?_, ?_⟩
  · intro a
    rw [claimsOf]
    dsimp only
    rw [hR a]
    have hcb : cbit a (linkLoop url origin (extractLinks hrefs url) s.crawl) =
        cbit a s.crawl := by
      rw [cbit, cbit, completedB, completedB, hls.2.1, hls.2.2.1]
    rw [hcb]
    have hclai := hcl a
    rw [claimsOf] at hclai
    by_cases haq : a ∈ s.crawl.queuedLinks
    · obtain ⟨hm2, hqe⟩ := hls.2.2.2.2.1 a haq
      rw [if_pos hm2, hqe]
      rw [if_pos haq] at hclai
      omega
    · rw [if_neg haq] at hclai
      obtain ⟨hin, hout⟩ := hls.2.2.2.2.2 a haq
      by_cases haq2 : a ∈ (linkLoop url origin (extractLinks hrefs url)
          s.crawl).queuedLinks
      · rw [if_pos haq2, hin haq2]
        omega
      · rw [if_neg haq2, hout haq2]
        omega
  · intro a ha
    rw [hls.1] at ha
    rcases hv a ha with hrc | hcb
    · left
      rw [hRC a]
      exact hrc
    · right
      rw [completedB, hls.2.1, hls.2.2.1]
      exact hcb

/-- One pool step preserves the dedup invariant. -/
lemma step_dedup (w : World) (origin : Str) (s s2 : SysState)
    (h : Step w origin s s2) (hinv : DedupInv s) : DedupInv s2 := by
  cases h with
  | dequeue i t rest hw hq =>
    obtain ⟨hnd, hcl, hv⟩ := hinv
    cases t with
    | check url =>
      by_cases hvis : url ∈ s.crawl.visited
      · exfalso
        have hclu := hcl url
        have hq1 : countQ url s.crawl.queue = countQ url rest + 1 := by
          rw [hq, countQ_cons]
          simp [taskUrl]
        rcases hv url hvis with hrc | hcb
        · have hle := countRC_le_countR url s.workers
          rw [claimsOf, hq1] at hclu
          split_ifs at hclu <;> omega
        · have hcb1 : cbit url s.crawl = 1 := by rw [cbit, hcb]; rfl
          rw [claimsOf, hq1] at hclu
          split_ifs at hclu <;> omega
      · have happ : applyStart (CrawlTask.check url) { s.crawl with queue := rest } =
            (RunningTask.checkFetch url,
              { s.crawl with queue := rest, visited := url :: s.crawl.visited }) := by
          simp [applyStart, hvis]
        rw [happ]
        have hR : ∀ a, countR a (s.workers.set i (.running (.checkFetch url))) =
            countR a s.workers + (if url = a then 1 else 0) := by
          intro a
          have := countR_set a s.workers i .idle (.running (.checkFetch url)) hw
          simpa [runUrl] using this
        have hRC : ∀ a, countRC a (s.workers.set i (.running (.checkFetch url))) =
            countRC a s.workers + (if url = a then 1 else 0) := by
          intro a
          have := countRC_set a s.workers i .idle (.running (.checkFetch url)) hw
          simpa [runCheckUrl] using this
        refine ⟨hnd, ?_, ?_⟩
        · intro a
          have hclai := hcl a
          rw [claimsOf, hq, countQ_cons] at hclai
          simp only [taskUrl] at hclai
          rw [claimsOf]
          dsimp only
          rw [hR a]
          have hcbe : cbit a { s.crawl with queue := rest, visited := url :: s.crawl.visited } =
              cbit a s.crawl := rfl
          rw [hcbe]
          by_cases hau : url = a
          · rw [if_pos hau] at hclai ⊢
            omega
          · rw [if_neg hau] at hclai ⊢
            omega
        · intro a ha
          dsimp only at ha
          rcases List.mem_cons.mp ha with rfl | ha2
          · left
            have hclu := hcl a
            have hq1 : countQ a s.crawl.queue = countQ a rest + 1 := by
              rw [hq, countQ_cons]
              simp [taskUrl]
            have hle := countRC_le_countR a s.workers
            have hc0 : countRC a s.workers = 0 := by
              rw [claimsOf, hq1] at hclu
              split_ifs at hclu <;> omega
            rw [hRC a, hc0, if_pos rfl]
          · have hane : a ≠ url := fun he => hvis (he ▸ ha2)
            rcases hv a ha2 with hrc | hcb
            · left
              rw [hRC a, if_neg (fun he => hane he.symm)]
              omega
            · right
              exact hcb
    | leaf url =>
      have happ : applyStart (CrawlTask.leaf url) { s.crawl with queue := rest } =
          (RunningTask.leafFetch url, { s.crawl with queue := rest }) := by
        simp [applyStart]
      rw [happ]
      have hR : ∀ a, countR a (s.workers.set i (.running (.leafFetch url))) =
          countR a s.workers + (if url = a then 1 else 0) := by
        intro a
        have := countR_set a s.workers i .idle (.running (.leafFetch url)) hw
        simpa [runUrl] using this
      have hRC : ∀ a, countRC a (s.workers.set i (.running (.leafFetch url))) =
          countRC a s.workers := by
        intro a
        have := countRC_set a s.workers i .idle (.running (.leafFetch url)) hw
        simpa [runCheckUrl] using this
      refine ⟨hnd, ?_, ?_⟩
      · intro a
        have hclai := hcl a
        rw [claimsOf, hq, countQ_cons] at hclai
        simp only [taskUrl] at hclai
        rw [claimsOf]
        dsimp only
        rw [hR a]
        have hcbe : cbit a { s.crawl with queue := rest } = cbit a s.crawl := rfl
        rw [hcbe]
        by_cases hau : url = a
        · rw [if_pos hau] at hclai ⊢
          omega
        · rw [if_neg hau] at hclai ⊢
          omega
      · intro a ha
        dsimp only at ha
        rcases hv a ha with hrc | hcb
        · left
          rw [hRC a]
          exact hrc
        · right
          exact hcb
  | complete i rt hw =>
    cases rt with
    | nop =>
      show DedupInv ⟨s.workers.set i .idle, s.crawl⟩
      obtain ⟨hnd, hcl, hv⟩ := hinv
      have hR : ∀ a, countR a (s.workers.set i .idle) = countR a s.workers := by
        intro a
        have := countR_set a s.workers i (.running .nop) .idle hw
        simpa [runUrl] using this
      have hRC : ∀ a, countRC a (s.workers.set i .idle) = countRC a s.workers := by
        intro a
        have := countRC_set a s.workers i (.running .nop) .idle hw
        simpa [runCheckUrl] using this
      refine ⟨hnd, ?_, ?_⟩
      · intro a
        have hclai := hcl a
        rw [claimsOf] at hclai
        rw [claimsOf]
        dsimp only
        rw [hR a]
        exact hclai
      · intro a ha
        rcases hv a ha with hrc | hcb
        · left
          rw [hRC a]
          exact hrc
        · right
          exact hcb
    | checkFetch url =>
      show DedupInv ⟨s.workers.set i (checkLinksPhase1 url (w url) s.crawl).1,
        (checkLinksPhase1 url (w url) s.crawl).2⟩
      exact complete_preserve s i _ url _ _ hw (by simp [runUrl])
        (checkLinksPhase1_runUrl url (w url) s.crawl)
        (checkLinksPhase1_runCheckUrl url (w url) s.crawl)
        (checkLinksPhase1_delta url (w url) s.crawl) hinv
    | textParse url hrefs =>
      exact textParse_preserve s i origin url hrefs hw hinv
    | leafFetch url =>
      exact complete_preserve s i _ url .idle _ hw (by simp [runUrl])
        (by simp [runUrl]) (by simp [runCheckUrl])
        (leafEffect_delta url (w url) s.crawl) hinv
  | retire i hw hq =>
    obtain ⟨hnd, hcl, hv⟩ := hinv
    have hR : ∀ a, countR a (s.workers.set i .done) = countR a s.workers := by
      intro a
      have := countR_set a s.workers i .idle .done hw
      simpa [runUrl] using this
    have hRC : ∀ a, countRC a (s.workers.set i .done) = countRC a s.workers := by
      intro a
      have := countRC_set a s.workers i .idle .done hw
      simpa [runCheckUrl] using this
    refine ⟨hnd, ?_, ?_⟩
    · intro a
      have hclai := hcl a
      rw [claimsOf] at hclai
      rw [claimsOf]
      dsimp only
      rw [hR a]
      exact hclai
    · intro a ha
      rcases hv a ha with hrc | hcb
      · left
        rw [hRC a]
        exact hrc
      · right
        exact hcb

/-- The dedup invariant holds right after `main` seeds the frontier. -/
lemma dedup_init (conc : Nat) (seed : Str) : DedupInv (initSys conc seed) := by
  refine ⟨List.nodup_singleton seed, ?_, ?_⟩
  · intro a
    have hRz : countR a (List.replicate conc Worker.idle) = 0 := by
      rw [countR, List.countP_eq_zero]
      intro wk hwk
      rw [List.eq_of_mem_replicate hwk]
      simp [runUrl]
    have hcb : cbit a (initCrawl seed) = 0 := by
      rw [cbit]
      simp [completedB, initCrawl]
    rw [claimsOf, initSys]
    dsimp only
    rw [hRz, hcb, initCrawl]
    dsimp only
    rw [countQ_cons]
    by_cases h : seed = a
    · subst h
      simp [countQ, taskUrl]
    · rw [if_neg (by simp [taskUrl, h])]
      have hm : ¬ a ∈ [seed] := by
        simp only [List.mem_singleton]
        exact fun he => h he.symm
      rw [if_neg hm]
      simp [countQ]
  · intro a ha
    simp [initSys, initCrawl] at ha

/-- The dedup invariant holds in every reachable state. -/
lemma reachable_dedup (w : World) (origin seed : Str) (conc : Nat) (s : SysState)
    (hr : Reachable w origin (initSys conc seed) s) : DedupInv s := by
  induction hr with
  | refl => exact dedup_init conc seed
  | tail hsteps hlast ih => exact step_dedup w origin _ _ hlast ih

/-- C2 counterexample data: the server answers every fetch with a 301
whose Location header is the malformed "https://". -/
def c2World : World := fun _ => .ok 301 (some (str "https://")) [] []

def c2Seed : Str := str "https://s.test/"

def c2Origin : Str := str "https://s.test"

/-- C2: the claim is false on the code as stated.  A 301 response whose
Location header does not parse makes `new URL(location, url)` at line 50
throw after line 33 already pushed the 301 outcome; the catch at line
124 then records a second, FETCH_ERROR outcome for the same address, so
two LinkOutcomes exist for one Address. -/
theorem c2_counterexample :
    Reachable c2World c2Origin (initSys 1 c2Seed)
        (execSched c2World c2Origin [0, 0] (initSys 1 c2Seed)) ∧
      (execSched c2World c2Origin [0, 0] (initSys 1 c2Seed)).crawl.checkedLinks =
        [⟨c2Seed, .code 301, none⟩, ⟨c2Seed, .fetchError, some invalidURLMsg⟩] ∧
      ((execSched c2World c2Origin [0, 0] (initSys 1 c2Seed)).crawl.checkedLinks.countP
          (fun o => o.url == c2Seed)) = 2 :=
  ⟨exec_reachable c2World c2Origin [0, 0] (initSys 1 c2Seed), by decide, by decide⟩

/-- C2 (amended): in every reachable state of every run, `queuedLinks`
is duplicate-free (an Address enters it at most once), and every Address
in the set is accounted for exactly once — one queued task, one running
worker, or a recorded outcome — while an Address outside the set has no
task and no outcome.  So at most one check is ever performed per
Address; only the malformed-Location path above can make that single
check record two outcome entries. -/
theorem c2_amended_dedup (w : World) (origin seed : Str) (conc : Nat) (s : SysState)
    (hr : Reachable w origin (initSys conc seed) s) :
    s.crawl.queuedLinks.Nodup ∧
      ∀ a : Str, claimsOf a s = if a ∈ s.crawl.queuedLinks then 1 else 0 := by
  obtain ⟨hnd, hcl, _⟩ := reachable_dedup w origin seed conc s hr
  exact ⟨hnd, hcl⟩

/-- C2 amended witness: the invariant evaluated on a finished concrete
run. -/
theorem c2_amended_dedup_witness :
    (execSched c2World c2Origin [0, 0] (initSys 1 c2Seed)).crawl.queuedLinks.Nodup ∧
      claimsOf c2Seed (execSched c2World c2Origin [0, 0] (initSys 1 c2Seed)) = 1 := by
  have h := c2_amended_dedup c2World c2Origin c2Seed 1
    (execSched c2World c2Origin [0, 0] (initSys 1 c2Seed))
    (exec_reachable c2World c2Origin [0, 0] (initSys 1 c2Seed))
  refine ⟨h.1, ?_⟩
  rw [h.2 c2Seed]
  decide

/-! ## C6: what the dead-link list contains -/

/-- A status at least 400 or the FETCH_ERROR tag. -/
def badStatusB (o : Outcome) : Bool :=
  match o.status with
  | .code n => 400 ≤ n
  | .fetchError => true

/-- A dead-list entry as the code actually produces them: status at
least 400, FETCH_ERROR, or a 3xx recorded with the missing-Location
error message. -/
def qualifiesB (o : Outcome) : Bool :=
  badStatusB o ||
    ((match o.status with
      | .code n => decide (300 ≤ n ∧ n < 400)
      | .fetchError => false) && (o.error == some redirectErrMsg))

/-- The classification invariant: every dead entry qualifies, and every
checked outcome with a bad status is also in the dead list. -/
def QualInv (c : CrawlState) : Prop :=
  (∀ o ∈ c.deadLinks, qualifiesB o = true) ∧
    (∀ o ∈ c.checkedLinks, badStatusB o = true → o ∈ c.deadLinks)

lemma linkLoop_qual (page origin : Str) (links : List Str) :
    ∀ c : CrawlState, QualInv c → QualInv (linkLoop page origin links c) := by
  induction links with
  | nil =>
    intro c h
    simpa [linkLoop] using h
  | cons link rest ih =>
    intro c h
    rw [linkLoop]
    by_cases hmem : link ∈ c.queuedLinks
    · rw [if_pos hmem]
      exact ih c h
    · rw [if_neg hmem]
      cases ho : urlOrigin link with
      | none =>
        dsimp only
        refine ⟨?_, ?_⟩
        · intro o hm
          rcases List.mem_append.mp hm with hold | hnew
          · exact h.1 o hold
          · rw [List.mem_singleton.mp hnew]
            simp [qualifiesB, badStatusB]
        · intro o hm hbad
          rcases List.mem_append.mp hm with hold | hnew
          · exact List.mem_append_left _ (h.2 o hold hbad)
          · exact List.mem_append_right _ hnew
      | some o2 =>
        dsimp only
        by_cases hor : o2 = origin
        · rw [if_pos hor]
          exact ih _ h
        · rw [if_neg hor]
          exact ih _ h

lemma checkLinksEffect_qual (origin url : Str) (res : FetchResult) (c : CrawlState)
    (h : QualInv c) : QualInv (checkLinksEffect origin url res c) := by
  have hgrow : ∀ (od : List Outcome) (oc : List Outcome),
      (∀ o ∈ od, qualifiesB o = true) →
      (∀ o ∈ c.deadLinks ++ od, qualifiesB o = true) := by
    intro od oc hod o hm
    rcases List.mem_append.mp hm with hold | hnew
    · exact h.1 o hold
    · exact hod o hnew
  cases res with
  | netError m =>
    rw [checkLinksEffect]
    refine ⟨hgrow _ [] ?_, ?_⟩
    · intro o hm
      rw [List.mem_singleton.mp hm]
      simp [qualifiesB, badStatusB]
    · intro o hm hbad
      rcases List.mem_append.mp hm with hold | hnew
      · exact List.mem_append_left _ (h.2 o hold hbad)
      · exact List.mem_append_right _ hnew
  | ok st loc ct hrefs =>
    rw [checkLinksEffect]
    by_cases h4 : 400 ≤ st
    · rw [if_pos h4]
      refine ⟨hgrow _ [] ?_, ?_⟩
      · intro o hm
        rw [List.mem_singleton.mp hm]
        simp [qualifiesB, badStatusB, h4]
      · intro o hm hbad
        rcases List.mem_append.mp hm with hold | hnew
        · exact List.mem_append_left _ (h.2 o hold hbad)
        · exact List.mem_append_right _ hnew
    · rw [if_neg h4]
      by_cases h3 : 300 ≤ st
      · rw [if_pos h3]
        by_cases hloc : loc.getD [] = []
        · rw [if_pos hloc]
          refine ⟨hgrow _ [] ?_, ?_⟩
          · intro o hm
            rw [List.mem_singleton.mp hm]
            simp [qualifiesB, badStatusB, h3]
            omega
          · intro o hm hbad
            rcases List.mem_append.mp hm with hold | hnew
            · exact List.mem_append_left _ (h.2 o hold hbad)
            · rw [List.mem_singleton.mp hnew] at hbad
              simp [badStatusB] at hbad
              omega
        · rw [if_neg hloc]
          cases hres : resolveRef (loc.getD []) url with
          | none =>
            dsimp only
            refine ⟨hgrow _ [] ?_, ?_⟩
            · intro o hm
              rw [List.mem_singleton.mp hm]
              simp [qualifiesB, badStatusB]
            · intro o hm hbad
              rcases List.mem_append.mp hm with hm2 | hnew2
              · rcases List.mem_append.mp hm2 with hold | hnew
                · exact List.mem_append_left _ (h.2 o hold hbad)
                · rw [List.mem_singleton.mp hnew] at hbad
                  simp [badStatusB] at hbad
                  omega
              · exact List.mem_append_right _ hnew2
          | some r =>
            dsimp only
            by_cases hrq : r ∈ c.queuedLinks
            · rw [if_pos hrq]
              refine ⟨h.1, ?_⟩
              intro o hm hbad
              rcases List.mem_append.mp hm with hold | hnew
              · exact h.2 o hold hbad
              · rw [List.mem_singleton.mp hnew] at hbad
                simp [badStatusB] at hbad
                omega
            · rw [if_neg hrq]
              refine ⟨h.1, ?_⟩
              intro o hm hbad
              rcases List.mem_append.mp hm with hold | hnew
              · exact h.2 o hold hbad
              · rw [List.mem_singleton.mp hnew] at hbad
                simp [badStatusB] at hbad
                omega
      · rw [if_neg h3]
        have hmid : QualInv
            { c with
              checked := c.checked + 1,
              checkedLinks := c.checkedLinks ++ [⟨url, .code st, none⟩] } := by
          refine ⟨h.1, ?_⟩
          intro o hm hbad
          rcases List.mem_append.mp hm with hold | hnew
          · exact h.2 o hold hbad
          · rw [List.mem_singleton.mp hnew] at hbad
            simp [badStatusB] at hbad
            omega
        by_cases hct : hasSub (str "text/html") ct = false
        · rw [if_pos hct]
          exact hmid
        · rw [if_neg hct]
          exact linkLoop_qual url origin (extractLinks hrefs url) _ hmid

lemma leafEffect_qual (url : Str) (res : FetchResult) (c : CrawlState)
    (h : QualInv c) : QualInv (leafEffect url res c) := by
  cases res with
  | netError m =>
    rw [leafEffect]
    refine ⟨?_, ?_⟩
    · intro o hm
      rcases List.mem_append.mp hm with hold | hnew
      · exact h.1 o hold
      · rw [List.mem_singleton.mp hnew]
        simp [qualifiesB, badStatusB]
    · intro o hm hbad
      exact List.mem_append_left _ (h.2 o hm hbad)
  | ok st loc ct hrefs =>
    rw [leafEffect]
    by_cases h4 : 400 ≤ st
    · rw [if_pos h4]
      refine ⟨?_, ?_⟩
      · intro o hm
        rcases List.mem_append.mp hm with hold | hnew
        · exact h.1 o hold
        · rw [List.mem_singleton.mp hnew]
          simp [qualifiesB, badStatusB, h4]
      · intro o hm hbad
        rcases List.mem_append.mp hm with hold | hnew
        · exact List.mem_append_left _ (h.2 o hold hbad)
        · exact List.mem_append_right _ hnew
    · rw [if_neg h4]
      refine ⟨h.1, ?_⟩
      intro o hm hbad
      rcases List.mem_append.mp hm with hold | hnew
      · exact h.2 o hold hbad
      · rw [List.mem_singleton.mp hnew] at hbad
        simp [badStatusB] at hbad
        omega

/-- The first check segment alone also preserves the classification
invariant: the checked and dead pushes of every bad-status case live in
this segment, in one synchronous block. -/
lemma checkLinksPhase1_qual (url : Str) (res : FetchResult) (c : CrawlState)
    (h : QualInv c) : QualInv (checkLinksPhase1 url res c).2 := by
  cases res with
  | netError m =>
    rw [checkLinksPhase1]
    refine ⟨?_, ?_⟩
    · intro o hm
      rcases List.mem_append.mp hm with hold | hnew
      · exact h.1 o hold
      · rw [List.mem_singleton.mp hnew]
        simp [qualifiesB, badStatusB]
    · intro o hm hbad
      rcases List.mem_append.mp hm with hold | hnew
      · exact List.mem_append_left _ (h.2 o hold hbad)
      · exact List.mem_append_right _ hnew
  | ok st loc ct hrefs =>
    rw [checkLinksPhase1]
    by_cases h4 : 400 ≤ st
    · rw [if_pos h4]
      refine ⟨?_, ?_⟩
      · intro o hm
        rcases List.mem_append.mp hm with hold | hnew
        · exact h.1 o hold
        · rw [List.mem_singleton.mp hnew]
          simp [qualifiesB, badStatusB, h4]
      · intro o hm hbad
        rcases List.mem_append.mp hm with hold | hnew
        · exact List.mem_append_left _ (h.2 o hold hbad)
        · exact List.mem_append_right _ hnew
    · rw [if_neg h4]
      by_cases h3 : 300 ≤ st
      · rw [if_pos h3]
        by_cases hloc : loc.getD [] = []
        · rw [if_pos hloc]
          refine ⟨?_, ?_⟩
          · intro o hm
            rcases List.mem_append.mp hm with hold | hnew
            · exact h.1 o hold
            · rw [List.mem_singleton.mp hnew]
              simp [qualifiesB, badStatusB, h3]
              omega
          · intro o hm hbad
            rcases List.mem_append.mp hm with hold | hnew
            · exact List.mem_append_left _ (h.2 o hold hbad)
            · rw [List.mem_singleton.mp hnew] at hbad
              simp [badStatusB] at hbad
              omega
        · rw [if_neg hloc]
          cases hres : resolveRef (loc.getD []) url with
          | none =>
            dsimp only
            refine ⟨?_, ?_⟩
            · intro o hm
              rcases List.mem_append.mp hm with hold | hnew
              · exact h.1 o hold
              · rw [List.mem_singleton.mp hnew]
                simp [qualifiesB, badStatusB]
            · intro o hm hbad
              rcases List.mem_append.mp hm with hm2 | hnew2
              · rcases List.mem_append.mp hm2 with hold | hnew
                · exact List.mem_append_left _ (h.2 o hold hbad)
                · rw [List.mem_singleton.mp hnew] at hbad
                  simp [badStatusB] at hbad
                  omega
              · exact List.mem_append_right _ hnew2
          | some r =>
            dsimp only
            by_cases hrq : r ∈ c.queuedLinks
            · rw [if_pos hrq]
              refine ⟨h.1, ?_⟩
              intro o hm hbad
              rcases List.mem_append.mp hm with hold | hnew
              · exact h.2 o hold hbad
              · rw [List.mem_singleton.mp hnew] at hbad
                simp [badStatusB] at hbad
                omega
            · rw [if_neg hrq]
              refine ⟨h.1, ?_⟩
              intro o hm hbad
              rcases List.mem_append.mp hm with hold | hnew
              · exact h.2 o hold hbad
              · rw [List.mem_singleton.mp hnew] at hbad
                simp [badStatusB] at hbad
                omega
      · rw [if_neg h3]
        have hmid : QualInv
            { c with
              checked := c.checked + 1,
              checkedLinks := c.checkedLinks ++ [⟨url, .code st, none⟩] } := by
          refine ⟨h.1, ?_⟩
          intro o hm hbad
          rcases List.mem_append.mp hm with hold | hnew
          · exact h.2 o hold hbad
          · rw [List.mem_singleton.mp hnew] at hbad
            simp [badStatusB] at hbad
            omega
        by_cases hct : hasSub (str "text/html") ct = false
        · rw [if_pos hct]
          exact hmid
        · rw [if_neg hct]
          exact hmid

lemma step_qual (w : World) (origin : Str) (s s2 : SysState)
    (h : Step w origin s s2) (hq : QualInv s.crawl) : QualInv s2.crawl := by
  cases h with
  | dequeue i t rest hw hqq =>
    cases t with
    | check url =>
      by_cases hvis : url ∈ s.crawl.visited
      · simpa [applyStart, hvis] using hq
      · simpa [applyStart, hvis] using hq
    | leaf url => simpa [applyStart] using hq
  | complete i rt hw =>
    cases rt with
    | nop => exact hq
    | checkFetch url => exact checkLinksPhase1_qual url (w url) s.crawl hq
    | textParse url hrefs =>
      exact linkLoop_qual url origin (extractLinks hrefs url) s.crawl hq
    | leafFetch url => exact leafEffect_qual url (w url) s.crawl hq
  | retire i hw hqq => exact hq

lemma reachable_qual (w : World) (origin seed : Str) (conc : Nat) (s : SysState)
    (hr : Reachable w origin (initSys conc seed) s) : QualInv s.crawl := by
  induction hr with
  | refl => constructor <;> simp [initSys, initCrawl]
  | tail hsteps hlast ih => exact step_qual w origin _ _ hlast ih

/-- C6 counterexample data: the seed answers 301 with no Location. -/
def c6World : World := fun _ => .ok 301 none [] []

def c6Seed : Str := str "https://s.test/"

def c6Origin : Str := str "https://s.test"

/-- C6: the claim is false on the code.  A 301 response without a
Location header is pushed onto `deadLinks` carrying its 3xx status
(line 43-47), so the dead-link list holds an entry whose status is
below 400 and is not FETCH_ERROR. -/
theorem c6_counterexample :
    Reachable c6World c6Origin (initSys 1 c6Seed)
        (execSched c6World c6Origin [0, 0] (initSys 1 c6Seed)) ∧
      (execSched c6World c6Origin [0, 0] (initSys 1 c6Seed)).crawl.deadLinks =
        [⟨c6Seed, .code 301, some redirectErrMsg⟩] ∧
      badStatusB ⟨c6Seed, .code 301, some redirectErrMsg⟩ = false :=
  ⟨exec_reachable c6World c6Origin [0, 0] (initSys 1 c6Seed), by decide, by decide⟩

/-- C6 (amended): at every point of every run, every dead-list entry has
status at least 400, or FETCH_ERROR, or is a 3xx recorded with the
missing-Location error message; and every checked outcome with status
at least 400 or FETCH_ERROR also appears in the dead list. -/
theorem c6_amended_dead_classification (w : World) (origin seed : Str) (conc : Nat)
    (s : SysState) (hr : Reachable w origin (initSys conc seed) s) :
    (∀ o ∈ s.crawl.deadLinks, qualifiesB o = true) ∧
      (∀ o ∈ s.crawl.checkedLinks, badStatusB o = true → o ∈ s.crawl.deadLinks) :=
  reachable_qual w origin seed conc s hr

/-- C6 amended witness data: the seed is a 404. -/
def c6World404 : World := fun _ => .ok 404 none [] []

/-- C6 amended witness: the classification evaluated on a concrete
404 run. -/
theorem c6_amended_witness :
    qualifiesB ⟨c6Seed, .code 404, none⟩ = true ∧
      (⟨c6Seed, Status.code 404, none⟩ : Outcome) ∈
        (execSched c6World404 c6Origin [0, 0] (initSys 1 c6Seed)).crawl.deadLinks := by
  have h := c6_amended_dead_classification c6World404 c6Origin c6Seed 1
    (execSched c6World404 c6Origin [0, 0] (initSys 1 c6Seed))
    (exec_reachable c6World404 c6Origin [0, 0] (initSys 1 c6Seed))
  exact ⟨h.1 ⟨c6Seed, .code 404, none⟩ (by decide),
    h.2 ⟨c6Seed, .code 404, none⟩ (by decide) (by decide)⟩

/-! ## C3: redirect handling, internal versus external -/

/-- C3: the claim is false on the code.  On the same 301-without-
Location response, the external leaf closure (lines 101-119) records a
plain 301 outcome, marks nothing dead, reads no Location and enqueues
nothing, while `checkLinks` (lines 40-57) records the address dead with
the missing-Location error.  External addresses are not run through the
redirect algorithm at all. -/
theorem c3_counterexample :
    (leafEffect (str "https://ext.test/a") (.ok 301 none [] [])
        (initCrawl (str "https://s.test/"))).deadLinks = [] ∧
      (leafEffect (str "https://ext.test/a") (.ok 301 none [] [])
        (initCrawl (str "https://s.test/"))).checkedLinks =
          [⟨str "https://ext.test/a", .code 301, none⟩] ∧
      (leafEffect (str "https://ext.test/a") (.ok 301 none [] [])
        (initCrawl (str "https://s.test/"))).queue =
          (initCrawl (str "https://s.test/")).queue ∧
      (checkLinksEffect (str "https://s.test") (str "https://ext.test/a")
        (.ok 301 none [] []) (initCrawl (str "https://s.test/"))).deadLinks =
          [⟨str "https://ext.test/a", .code 301, some redirectErrMsg⟩] :=
  ⟨by decide, by decide, by decide, by decide⟩

/-- C3 (amended): the redirect algorithm applies exactly to addresses
checked through `checkLinks` (the seed, internal links, and redirect
targets): a 3xx with a missing or empty Location is recorded dead with
the error message, and a present Location is resolved against the
current address and enqueued as a recursive task exactly when it is not
yet in `queuedLinks`.  An external leaf check records the 3xx outcome
and does nothing else: no Location read, no dead marking, no follow-up
task. -/
theorem c3_amended_redirect_handling (origin url : Str) (st : Nat) (loc : Option Str)
    (ct : Str) (hrefs : List Str) (c : CrawlState) (h3 : 300 ≤ st) (h4 : st < 400) :
    (loc.getD [] = [] →
      checkLinksEffect origin url (.ok st loc ct hrefs) c =
        { c with
          checked := c.checked + 1,
          checkedLinks := c.checkedLinks ++ [⟨url, .code st, none⟩],
          deadLinks := c.deadLinks ++ [⟨url, .code st, some redirectErrMsg⟩] }) ∧
      (∀ r, loc.getD [] ≠ [] → resolveRef (loc.getD []) url = some r →
        (r ∈ c.queuedLinks →
          checkLinksEffect origin url (.ok st loc ct hrefs) c =
            { c with
              checked := c.checked + 1,
              checkedLinks := c.checkedLinks ++ [⟨url, .code st, none⟩] }) ∧
        (r ∉ c.queuedLinks →
          checkLinksEffect origin url (.ok st loc ct hrefs) c =
            { c with
              checked := c.checked + 1,
              checkedLinks := c.checkedLinks ++ [⟨url, .code st, none⟩],
              queue := c.queue ++ [.check r],
              queuedLinks := r :: c.queuedLinks,
              totalLinks := c.totalLinks + 1 })) ∧
      leafEffect url (.ok st loc ct hrefs) c =
        { c with
          checked := c.checked + 1,
          checkedLinks := c.checkedLinks ++ [⟨url, .code st, none⟩] } := by
  have h4n : ¬ (400 ≤ st) := by omega
  refine ⟨?_, ?_, ?_⟩
  · intro hloc
    simp only [checkLinksEffect]
    rw [if_neg h4n, if_pos h3, if_pos hloc]
  · intro r hloc hres
    constructor
    · intro hrq
      simp only [checkLinksEffect]
      rw [if_neg h4n, if_pos h3, if_neg hloc, hres]
      dsimp only
      rw [if_pos hrq]
    · intro hrq
      simp only [checkLinksEffect]
      rw [if_neg h4n, if_pos h3, if_neg hloc, hres]
      dsimp only
      rw [if_neg hrq]
  · simp only [leafEffect]
    rw [if_neg h4n]

/-- C3 amended witness: a concrete 301 with Location "/next" on an
internal page enqueues the resolved target, and the external leaf check
of a 301 records only the outcome. -/
theorem c3_amended_witness :
    checkLinksEffect (str "https://s.test") (str "https://s.test/p")
        (.ok 301 (some (str "/next")) [] []) (initCrawl (str "https://s.test/")) =
      { initCrawl (str "https://s.test/") with
        checked := (initCrawl (str "https://s.test/")).checked + 1,
        checkedLinks := (initCrawl (str "https://s.test/")).checkedLinks ++
          [⟨str "https://s.test/p", .code 301, none⟩],
        queue := (initCrawl (str "https://s.test/")).queue ++
          [.check (str "https://s.test/next")],
        queuedLinks := str "https://s.test/next" ::
          (initCrawl (str "https://s.test/")).queuedLinks,
        totalLinks := (initCrawl (str "https://s.test/")).totalLinks + 1 } ∧
      leafEffect (str "https://s.test/p") (.ok 301 (some (str "/next")) [] [])
          (initCrawl (str "https://s.test/")) =
        { initCrawl (str "https://s.test/") with
          checked := (initCrawl (str "https://s.test/")).checked + 1,
          checkedLinks := (initCrawl (str "https://s.test/")).checkedLinks ++
            [⟨str "https://s.test/p", .code 301, none⟩] } := by
  have h := c3_amended_redirect_handling (str "https://s.test") (str "https://s.test/p")
    301 (some (str "/next")) [] [] (initCrawl (str "https://s.test/"))
    (by decide) (by decide)
  exact ⟨(h.2.1 (str "https://s.test/next") (by decide) (by decide)).2 (by decide), h.2.2⟩

/-! ## C4 and C5: normalization -/

lemma resolveRef_absPath (p base : Str) (b : URLParts) (hb : parseURL base = some b)
    (hsplit : splitScheme p = none) (hne : p ≠ []) (h2 : p.take 2 ≠ ['/', '/'])
    (hh : p.head? = some '/') :
    resolveRef p base = some (hrefOf { b with path := p }) := by
  rw [resolveRef, hsplit, hb]
  dsimp only
  rw [if_neg hne, if_neg h2, if_pos hh]

/-- C4: normalization equivalence.  Against any base Address, the hrefs
"/a/b/", "/a/b" and "/a/b#frag" all normalize to the same Address: the
fragment is split off before resolution and one trailing slash is
stripped after it. -/
theorem c4_normalization_equivalence (base : Str) (b : URLParts)
    (hb : parseURL base = some b) :
    normalizeHref (str "/a/b/") base = some (originOf b ++ str "/a/b") ∧
      normalizeHref (str "/a/b") base = some (originOf b ++ str "/a/b") ∧
      normalizeHref (str "/a/b#frag") base = some (originOf b ++ str "/a/b") := by
  have e1 : normalizeHref (str "/a/b") base =
      (match resolveRef (str "/a/b") base with
       | none => none
       | some r => some (if r.getLast? = some '/' then r.dropLast else r)) := rfl
  have e2 : normalizeHref (str "/a/b/") base =
      (match resolveRef (str "/a/b/") base with
       | none => none
       | some r => some (if r.getLast? = some '/' then r.dropLast else r)) := rfl
  have e3 : normalizeHref (str "/a/b#frag") base = normalizeHref (str "/a/b") base := rfl
  have hr1 := resolveRef_absPath (str "/a/b") base b hb (by decide) (by decide)
    (by decide) (by decide)
  have hr2 := resolveRef_absPath (str "/a/b/") base b hb (by decide) (by decide)
    (by decide) (by decide)
  have hp1 : ({ b with path := str "/a/b" } : URLParts).path ≠ [] := by
    show str "/a/b" ≠ []
    decide
  have hp2 : ({ b with path := str "/a/b/" } : URLParts).path ≠ [] := by
    show str "/a/b/" ≠ []
    decide
  have hx1 : normalizeHref (str "/a/b") base = some (originOf b ++ str "/a/b") := by
    rw [e1, hr1]
    dsimp only
    have hgl : (hrefOf { b with path := str "/a/b" }).getLast? = some 'b' := by
      rw [getLast?_hrefOf _ hp1]
      show (str "/a/b").getLast? = some 'b'
      decide
    rw [hgl]
    rw [if_neg (by decide)]
    simp [hrefOf, originOf, List.append_assoc]
  have hx2 : normalizeHref (str "/a/b/") base = some (originOf b ++ str "/a/b") := by
    rw [e2, hr2]
    dsimp only
    have hgl : (hrefOf { b with path := str "/a/b/" }).getLast? = some '/' := by
      rw [getLast?_hrefOf _ hp2]
      show (str "/a/b/").getLast? = some '/'
      decide
    rw [hgl, if_pos rfl]
    rw [dropLast_hrefOf _ hp2]
    have hdl : (str "/a/b/").dropLast = str "/a/b" := by decide
    rw [show ({ b with path := str "/a/b/" } : URLParts).path = str "/a/b/" from rfl, hdl]
    simp [originOf, List.append_assoc]
  exact ⟨hx2, hx1, by rw [e3, hx1]⟩

/-- C4 witness: the equivalence evaluated against a concrete base. -/
theorem c4_witness :
    normalizeHref (str "/a/b/") (str "https://example.com/x") =
        some (originOf ⟨str "https", str "example.com", str "/x"⟩ ++ str "/a/b") ∧
      normalizeHref (str "/a/b") (str "https://example.com/x") =
        some (originOf ⟨str "https", str "example.com", str "/x"⟩ ++ str "/a/b") ∧
      normalizeHref (str "/a/b#frag") (str "https://example.com/x") =
        some (originOf ⟨str "https", str "example.com", str "/x"⟩ ++ str "/a/b") :=
  c4_normalization_equivalence (str "https://example.com/x")
    ⟨str "https", str "example.com", str "/x"⟩ (by decide)

/-- C5: the claim is false on the code.  The normalizer strips the
trailing slash unconditionally (lines 77-79): a href resolving to the
empty root "https://example.com/" produces the address
"https://example.com", so the root does get collapsed. -/
theorem c5_counterexample :
    normalizeHref (str "/") (str "https://example.com/x") =
        some (str "https://example.com") ∧
      (str "https://example.com").getLast? ≠ some '/' :=
  ⟨by decide, by decide⟩

/-- C5 (amended): the trailing slash is stripped even when the path is
the empty root: a href resolving to the root of any base collapses to
scheme://host (still a parseable address). -/
theorem c5_amended_root_collapsed (base : Str) (b : URLParts)
    (hb : parseURL base = some b) :
    normalizeHref (str "/") base = some (originOf b) ∧
      (parseURL (originOf b)).isSome = true := by
  have e1 : normalizeHref (str "/") base =
      (match resolveRef (str "/") base with
       | none => none
       | some r => some (if r.getLast? = some '/' then r.dropLast else r)) := rfl
  have hr1 := resolveRef_absPath (str "/") base b hb (by decide) (by decide)
    (by decide) (by decide)
  have hwb := parseURL_wf base b hb
  have hp1 : ({ b with path := str "/" } : URLParts).path ≠ [] := by
    show str "/" ≠ []
    decide
  have hgl : (hrefOf { b with path := str "/" }).getLast? = some '/' := by
    rw [getLast?_hrefOf _ hp1]
    show (str "/").getLast? = some '/'
    decide
  have hx : normalizeHref (str "/") base = some (originOf b) := by
    rw [e1, hr1]
    dsimp only
    rw [hgl, if_pos rfl]
    rw [dropLast_hrefOf _ hp1]
    have hdl : (str "/").dropLast = [] := by decide
    rw [show ({ b with path := str "/" } : URLParts).path = str "/" from rfl, hdl]
    simp [originOf]
  refine ⟨hx, ?_⟩
  have hform : originOf b = b.scheme ++ ':' :: '/' :: '/' :: b.host := by
    simp [originOf, List.append_assoc]
  rw [hform, parse_hostOnly b.scheme b.host hwb.1 hwb.2.1 hwb.2.2.1 hwb.2.2.2.1]
  rfl

/-- C5 amended witness: the root collapse on a concrete base. -/
theorem c5_amended_witness :
    normalizeHref (str "/") (str "https://example.com/x") =
        some (originOf ⟨str "https", str "example.com", str "/x"⟩) ∧
      (parseURL (originOf ⟨str "https", str "example.com", str "/x"⟩)).isSome = true :=
  c5_amended_root_collapsed (str "https://example.com/x")
    ⟨str "https", str "example.com", str "/x"⟩ (by decide)

/-! ## C7: transport failures -/

/-- C7: the claim is false on the code.  An external address whose fetch
fails at the transport level is pushed to `deadLinks` only (lines
112-118): the full checked-links list gets no entry for it. -/
theorem c7_counterexample :
    (leafEffect (str "https://ext.test/x")
        (.netError (str "getaddrinfo ENOTFOUND ext.test"))
        (initCrawl (str "https://s.test/"))).checkedLinks = [] ∧
      (leafEffect (str "https://ext.test/x")
        (.netError (str "getaddrinfo ENOTFOUND ext.test"))
        (initCrawl (str "https://s.test/"))).deadLinks =
          [⟨str "https://ext.test/x", .fetchError,
            some (str "getaddrinfo ENOTFOUND ext.test")⟩] :=
  ⟨by decide, by decide⟩

/-- C7 (amended): a transport failure is terminal for the address and
enqueues nothing; for an address checked via `checkLinks` the
FETCH_ERROR outcome with the error message is recorded in both the
checked list and the dead list (lines 124-127), while for an external
leaf check it is recorded in the dead list only (lines 112-118). -/
theorem c7_amended_transport_failure (origin url m : Str) (c : CrawlState) :
    checkLinksEffect origin url (.netError m) c =
      { c with
        checkedLinks := c.checkedLinks ++ [⟨url, .fetchError, some m⟩],
        deadLinks := c.deadLinks ++ [⟨url, .fetchError, some m⟩] } ∧
      leafEffect url (.netError m) c =
        { c with deadLinks := c.deadLinks ++ [⟨url, .fetchError, some m⟩] } ∧
      (checkLinksEffect origin url (.netError m) c).queue = c.queue ∧
      (leafEffect url (.netError m) c).queue = c.queue :=
  ⟨rfl, rfl, rfl, rfl⟩

/-! ## C8: exit behavior of `main` -/

/-- C8: with no positional URL argument `main` prints the usage message
and exits 1 before any crawling (the outcome does not depend on the
network or the schedule); on a completed run it exits 0 exactly when
`deadLinks` stayed empty, and otherwise exits 1 after printing one line
per dead link that carries the address, the status text, and for
entries with an error message (in particular transport failures) the
message itself. -/
theorem c8_exit_behavior (args : List Str) (w : World) (sched : List Nat) :
    (findInputURL args = none →
      (∀ (w2 : World) (sched2 : List Nat), mainModel args w2 sched2 = MainFinal.usage) ∧
        exitOf (mainModel args w sched) = 1) ∧
      (∀ (url : Str) (pu : URLParts), findInputURL args = some url → url ≠ [] →
        parseURL url = some pu →
        allDoneB (execSched w (originOf pu) sched (initSys (concurrencyOf args) url)) =
          true →
        (exitOf (mainModel args w sched) = 0 ↔
          (execSched w (originOf pu) sched
            (initSys (concurrencyOf args) url)).crawl.deadLinks = []) ∧
          mainModel args w sched = .finished
            (if (execSched w (originOf pu) sched
                (initSys (concurrencyOf args) url)).crawl.deadLinks = [] then 0 else 1)
            ((execSched w (originOf pu) sched
              (initSys (concurrencyOf args) url)).crawl.deadLinks.map deadLine) ∧
          (∀ o ∈ (execSched w (originOf pu) sched
              (initSys (concurrencyOf args) url)).crawl.deadLinks,
            (∃ pre post, deadLine o = pre ++ o.url ++ post) ∧
              ∀ m, o.error = some m → ∃ pre post, deadLine o = pre ++ m ++ post)) := by
  constructor
  · intro hn
    constructor
    · intro w2 sched2
      rw [mainModel, hn]
    · rw [mainModel, hn]
      rfl
  · intro url pu hu hne hpu hdone
    have hmm : mainModel args w sched = .finished
        (if (execSched w (originOf pu) sched
            (initSys (concurrencyOf args) url)).crawl.deadLinks = [] then 0 else 1)
        ((execSched w (originOf pu) sched
          (initSys (concurrencyOf args) url)).crawl.deadLinks.map deadLine) := by
      rw [mainModel, hu]
      dsimp only
      rw [if_neg hne, hpu]
    refine ⟨?_, hmm, ?_⟩
    · rw [hmm]
      by_cases hd : (execSched w (originOf pu) sched
          (initSys (concurrencyOf args) url)).crawl.deadLinks = []
      · simp [hd, exitOf]
      · simp [hd, exitOf]
    · intro o ho
      constructor
      · refine ⟨str "- ", str " (Status: " ++ statusText o.status ++
          (match o.error with
           | some e => str ", Error: " ++ e
           | none => ([] : Str)) ++ str ")", ?_⟩
        simp [deadLine, List.append_assoc]
      · intro m herr
        refine ⟨str "- " ++ o.url ++ str " (Status: " ++ statusText o.status ++
          str ", Error: ", str ")", ?_⟩
        simp [deadLine, herr, List.append_assoc]

/-- C8 witness data: every address is a 404. -/
def c8World : World := fun _ => .ok 404 none [] []

def c8Args : List Str := [str "https://d.test/", str "--concurrent=1"]

def c8Sched : List Nat := [0, 0, 0]

/-- C8 witness: the usage branch on an argument list with no URL, and
the completed-run branch on a concrete 404 crawl. -/
theorem c8_witness :
    mainModel [str "-v"] c8World [] = MainFinal.usage ∧
      (exitOf (mainModel c8Args c8World c8Sched) = 0 ↔
        (execSched c8World (originOf ⟨str "https", str "d.test", str "/"⟩) c8Sched
          (initSys (concurrencyOf c8Args) (str "https://d.test/"))).crawl.deadLinks =
            []) := by
  have h1 := (c8_exit_behavior [str "-v"] c8World []).1 (by decide)
  have h2 := (c8_exit_behavior c8Args c8World c8Sched).2 (str "https://d.test/")
    ⟨str "https", str "d.test", str "/"⟩ (by decide) (by decide) (by decide) (by decide)
  exact ⟨h1.1 c8World [], h2.1⟩

/-! ## C9: the seed is enqueued verbatim -/

/-- C9 world: the slashed and slashless forms of the site root both
answer 200 with an HTML body whose only anchor is href="/". -/
def c9World : World := fun u =>
  if u = str "https://s.test/" ∨ u = str "https://s.test" then
    .ok 200 none (str "text/html") [str "/"]
  else .netError []

def c9Args : List Str := [str "https://s.test/", str "--concurrent=1"]

def c9Sched : List Nat := [0, 0, 0, 0, 0, 0, 0]

/-- C9: the seed URL enters the frontier verbatim (lines 194-195), with
its trailing slash; the href "/" discovered on the seed page normalizes
to the slash-stripped form, which is a different string, so it is
enqueued and fetched as a second Address: the completed run holds two
LinkOutcomes for the same resource, and still exits 0. -/
theorem c9_seed_verbatim :
    (initSys (concurrencyOf c9Args) (str "https://s.test/")).crawl.queuedLinks =
        [str "https://s.test/"] ∧
      normalizeHref (str "/") (str "https://s.test/") = some (str "https://s.test") ∧
      mainModel c9Args c9World c9Sched = .finished 0 [] ∧
      (execSched c9World (str "https://s.test") c9Sched
          (initSys (concurrencyOf c9Args) (str "https://s.test/"))).crawl.checkedLinks =
        [⟨str "https://s.test/", .code 200, none⟩,
         ⟨str "https://s.test", .code 200, none⟩] ∧
      allDoneB (execSched c9World (str "https://s.test") c9Sched
        (initSys (concurrencyOf c9Args) (str "https://s.test/"))) = true :=
  ⟨by decide, by decide, by decide, by decide, by decide⟩

/-! ## C10: a worker count that parses to zero, negative or NaN -/

/-- C10: when the --concurrent option yields zero workers (0, negative,
or NaN via ToLength at line 136), `Array.from` builds no worker, so
`Promise.all([])` resolves at once: the crawl state never changes, the
seed is never fetched, and the run exits 0 with no dead links. -/
theorem c10_zero_concurrency (args : List Str) (w : World) (sched : List Nat)
    (url : Str) (pu : URLParts) (hu : findInputURL args = some url) (hne : url ≠ [])
    (hpu : parseURL url = some pu) (hc : concurrencyOf args = 0) :
    mainModel args w sched = .finished 0 [] ∧
      execSched w (originOf pu) sched (initSys (concurrencyOf args) url) =
        initSys (concurrencyOf args) url ∧
      (initSys (concurrencyOf args) url).crawl.checkedLinks = [] ∧
      (initSys (concurrencyOf args) url).crawl.queue = [.check url] ∧
      allDoneB (initSys (concurrencyOf args) url) = true := by
  have hworkers : (initSys (concurrencyOf args) url).workers = [] := by
    rw [hc, initSys]
    rfl
  have hexec : ∀ (sch : List Nat) (s : SysState), s.workers = [] →
      execSched w (originOf pu) sch s = s := by
    intro sch
    induction sch with
    | nil =>
      intro s hs
      rfl
    | cons i rest ih =>
      intro s hs
      have hnone : s.workers[i]? = none := by
        rw [hs]
        rfl
      have hstep : execStep w (originOf pu) s i = s := by
        simp [execStep, hnone]
      show execSched w (originOf pu) rest (execStep w (originOf pu) s i) = s
      rw [hstep]
      exact ih s hs
  have hfin := hexec sched _ hworkers
  refine ⟨?_, hfin, ?_, ?_, ?_⟩
  · rw [mainModel, hu]
    dsimp only
    rw [if_neg hne, hpu]
    dsimp only
    rw [hfin]
    simp [initSys, initCrawl]
  · rw [initSys, initCrawl]
  · rw [initSys, initCrawl]
  · rw [hc]
    rfl

/-- C10 witness data: --concurrent=abc parses to NaN. -/
def c10Args : List Str := [str "https://x.test/", str "--concurrent=abc"]

def c10World : World := fun _ => .netError []

/-- C10 witness: the zero-worker run on a concrete NaN worker count. -/
theorem c10_witness :
    mainModel c10Args c10World [0, 1, 2] = .finished 0 [] ∧
      (initSys (concurrencyOf c10Args) (str "https://x.test/")).crawl.checkedLinks =
        [] := by
  have h := c10_zero_concurrency c10Args c10World [0, 1, 2] (str "https://x.test/")
    ⟨str "https", str "x.test", str "/"⟩ (by decide) (by decide) (by decide) (by decide)
  exact ⟨h.1, h.2.2.1⟩

end Dlc
